import Mathlib

set_option autoImplicit false

/-!
# Verification of the openal-soft real-time core (ring buffer + compressor)

Shallow embedding of `common/ringbuffer.h` and `core/mastering.cpp`,
with the properties of the natural-language specification settled as
theorems.

Conventions:
* C `float` arithmetic is modelled over `ℝ` (the compressor's control path)
  or over exact linear orders where only comparisons matter.
* C unsigned machine integers (`size_t` cursors of the ring buffer) are
  modelled as `ℕ` reduced modulo `2 ^ 64` exactly where the machine wraps.
* Arrays are modelled as total functions `ℕ → α` together with the index
  arithmetic (`% BufferLineSize`, `&&& mask`) that the source performs.
-/

/-- Modelled from the spec: `BufferLineSize` is declared in a header that is
not among the sources (`core/bufferline.h`); the sources only assert that it
is a power of two and the spec calls it the fixed maximum block length.  The
upstream value is 1024 samples. -/
def BufferLineSize : ℕ := 1024

/-! ## Ring buffer (`common/ringbuffer.h`)

The cursors `mWritePtr`/`mReadPtr` are `std::size_t`: monotonically
increasing counters that wrap at `2 ^ 64`.  The atomics/memory orders of the
single-producer/single-consumer discipline have no sequential content, so the
embedding keeps just the cursor values. -/

/-- Number of values of the C `std::size_t` type (64-bit platform). -/
def WORD : ℕ := 2 ^ 64

/-- Unsigned 64-bit difference `w - r` of two cursor values: for operands
below `WORD` the machine computes `(w + WORD - r) % WORD`. -/
def usub64 (w r : ℕ) : ℕ := (w % WORD + WORD - r % WORD) % WORD

structure RingBuffer where
  mWritePtr : ℕ
  mReadPtr : ℕ
  mWriteSize : ℕ
  mSizeMask : ℕ
  mElemSize : ℕ
deriving Repr

namespace RingBuffer

/-- `readSpace()`: `(w - r) & mSizeMask` with `size_t` subtraction. -/
def readSpace (rb : RingBuffer) : ℕ :=
  usub64 rb.mWritePtr rb.mReadPtr &&& rb.mSizeMask

/-- `writeSpace()`: `mWriteSize - readSpace()` (`size_t` subtraction; in
every state reachable through the API `readSpace() ≤ mWriteSize`, so the
truncated `ℕ` subtraction agrees with the machine). -/
def writeSpace (rb : RingBuffer) : ℕ := rb.mWriteSize - rb.readSpace

/-- `readAdvance(cnt)`: the read cursor is increased by `cnt`, wrapping as a
`size_t`. -/
def readAdvance (rb : RingBuffer) (cnt : ℕ) : RingBuffer :=
  { rb with mReadPtr := (rb.mReadPtr + cnt) % WORD }

/-- `writeAdvance(cnt)`: the write cursor is increased by `cnt`, wrapping as
a `size_t`. -/
def writeAdvance (rb : RingBuffer) (cnt : ℕ) : RingBuffer :=
  { rb with mWritePtr := (rb.mWritePtr + cnt) % WORD }

/-- Modelled from the spec: `RingBuffer::Create`'s body is not among the
sources, only its header declaration and doc comment.  Per the spec the
element count is rounded up to the next power of two, "even if it is already
a power of two, to ensure the requested amount can be written", and
`limit_writes` reserves one slot (`mWriteSize = N - 1` instead of `N`).
`2 ^ Nat.size sz` is the least power of two strictly greater than `sz`. -/
def Create (sz elem_sz : ℕ) (limit_writes : Bool) : RingBuffer :=
  let power_of_two := 2 ^ Nat.size sz
  { mWritePtr := 0
    mReadPtr := 0
    mWriteSize := if limit_writes then power_of_two - 1 else power_of_two
    mSizeMask := power_of_two - 1
    mElemSize := elem_sz }

/-- Capacity of the buffer (number of element slots). -/
def capacity (rb : RingBuffer) : ℕ := rb.mSizeMask + 1

/-- Modelled from the spec: the copying writer `write(src, cnt)` transfers
`min(cnt, writeSpace())` elements and advances the write cursor by that
amount, returning the count (data movement is not modelled; the claims
settled here concern the cursor arithmetic). -/
def write (rb : RingBuffer) (cnt : ℕ) : RingBuffer × ℕ :=
  let n := min cnt rb.writeSpace
  (rb.writeAdvance n, n)

/-- Modelled from the spec: the copying reader `read(dest, cnt)` transfers
`min(cnt, readSpace())` elements and advances the read cursor by that
amount, returning the count. -/
def read (rb : RingBuffer) (cnt : ℕ) : RingBuffer × ℕ :=
  let n := min cnt rb.readSpace
  (rb.readAdvance n, n)

end RingBuffer

/-! ## Sliding hold (`core/mastering.cpp`, `struct SlidingHold`)

The hold stores IEEE floats and compares them with `>=` only, so it is
modelled generically over a linear order `α`; the `-inf` sentinel written by
`Compressor::Create` requires a bottom element (`α = WithBot ℝ` in the
compressor model, finite inputs being coerced).  The two circular arrays of
size `BufferLineSize` are total functions `ℕ → _` indexed modulo
`BufferLineSize`, exactly as the source indexes with `& mask`. -/

structure SlidingHold (α : Type) where
  mValues : ℕ → α
  mExpiries : ℕ → ℕ
  mLowerIndex : ℕ
  mUpperIndex : ℕ
  mLength : ℕ

/-- Pointwise array update (a store into `mValues`/`mExpiries`). -/
def updf {α : Type} (f : ℕ → α) (k : ℕ) (v : α) : ℕ → α :=
  fun j => if j = k then v else f j

/-- The lower-index search loop of `UpdateSlidingHold`: starting from
`lowerIndex`, walk downward (circularly: the do/while sweeps to index 0,
returns false, and the outer loop restarts at `mask`, which together is a
circular decrement) while `in >= values[lowerIndex]`, stopping at the first
index whose value exceeds `in`.  The C loop has no termination guard; the
fuel is an upper bound on the steps any terminating execution of the loop
performs (at most one full sweep from the starting index plus one wrap), and
is never exhausted in states reachable from the initial hold. -/
def findLowerLoop {α : Type} [LinearOrder α] (values : ℕ → α) (xin : α) :
    ℕ → ℕ → ℕ
  | low, 0 => low % BufferLineSize
  | low, fuel + 1 =>
    if xin ≥ values (low % BufferLineSize) then
      findLowerLoop values xin ((low + (BufferLineSize - 1)) % BufferLineSize) fuel
    else low % BufferLineSize

/-- `UpdateSlidingHold(Hold, i, in)` from `core/mastering.cpp`: returns the
updated hold together with the returned value `values[upperIndex]`. -/
def UpdateSlidingHold {α : Type} [LinearOrder α] (h : SlidingHold α) (i : ℕ)
    (xin : α) : SlidingHold α × α :=
  let upperIndex :=
    if i ≥ h.mExpiries h.mUpperIndex then (h.mUpperIndex + 1) % BufferLineSize
    else h.mUpperIndex
  if xin ≥ h.mValues upperIndex then
    let values := updf h.mValues upperIndex xin
    ({ mValues := values
       mExpiries := updf h.mExpiries upperIndex (i + h.mLength)
       mLowerIndex := upperIndex
       mUpperIndex := upperIndex
       mLength := h.mLength }, values upperIndex)
  else
    let lowerIndex :=
      (findLowerLoop h.mValues xin h.mLowerIndex (2 * BufferLineSize + 1) + 1)
        % BufferLineSize
    let values := updf h.mValues lowerIndex xin
    ({ mValues := values
       mExpiries := updf h.mExpiries lowerIndex (i + h.mLength)
       mLowerIndex := lowerIndex
       mUpperIndex := upperIndex
       mLength := h.mLength }, values upperIndex)

/-- The hold as `Compressor::Create` initializes it: value-initialized
(all-zero) arrays, then `mValues[0] = -infinity`, `mExpiries[0] = hold`,
`mLength = hold`, indices zero.  `z` stands for the value-initialized float
`0.0f` (its value is irrelevant: those slots are outside the live span). -/
def initHold {α : Type} [LinearOrder α] [OrderBot α] (L : ℕ) (z : α) :
    SlidingHold α :=
  { mValues := updf (fun _ => z) 0 ⊥
    mExpiries := updf (fun _ => 0) 0 L
    mLowerIndex := 0
    mUpperIndex := 0
    mLength := L }

/-- `ShiftSlidingHold(Hold, n)`: subtract `n` from the expiry of every entry
in the live span `[upperIndex .. lowerIndex]` (circularly).  The C `uint`
subtraction wraps, but every live expiry is `≥ n` after a block of `n`
samples, so the truncated `ℕ` subtraction agrees with the machine. -/
def ShiftSlidingHold {α : Type} (h : SlidingHold α) (n : ℕ) : SlidingHold α :=
  let inSpan : ℕ → Prop := fun j =>
    if h.mLowerIndex < h.mUpperIndex then
      (h.mUpperIndex ≤ j ∧ j < BufferLineSize) ∨ j ≤ h.mLowerIndex
    else h.mUpperIndex ≤ j ∧ j ≤ h.mLowerIndex
  { h with
    mExpiries := fun j =>
      if inSpan j then h.mExpiries j - n else h.mExpiries j }

/-- Run `UpdateSlidingHold` on inputs `inputs 0, inputs 1, ...` for the
sample indices `0, 1, ..., k-1` (the per-sample indices the peak-hold
detector feeds). -/
def runHold {α : Type} [LinearOrder α] (inputs : ℕ → α) :
    SlidingHold α → ℕ → SlidingHold α
  | h, 0 => h
  | h, k + 1 => (UpdateSlidingHold (runHold inputs h k) k (inputs k)).1

/-- Value returned by the `i`-th call to `UpdateSlidingHold`. -/
def holdOutput {α : Type} [LinearOrder α] (inputs : ℕ → α) (h : SlidingHold α)
    (i : ℕ) : α :=
  (UpdateSlidingHold (runHold inputs h i) i (inputs i)).2

/-- The brute-force sliding-window-maximum oracle:
`max(inputs[max(0, i-L+1)], ..., inputs[i])` (for `L ≥ 1` the truncated `ℕ`
subtraction `i - (L - 1)` is exactly `max(0, i-L+1)`). -/
def windowMax {α : Type} [LinearOrder α] (inputs : ℕ → α) (L i : ℕ) : α :=
  (Finset.Icc (i - (L - 1)) i).sup' (by rw [Finset.nonempty_Icc]; omega) inputs

/-- The window indices whose input strictly dominates every later input of
the window: precisely the entries the descending-maxima structure keeps
after processing samples `0..i` (in increasing index order). -/
def windowRecords {α : Type} [LinearOrder α] (inputs : ℕ → α) (L i : ℕ) :
    List ℕ :=
  (List.range (i + 1)).filter fun j =>
    decide (i < j + L ∧ ∀ k, k ≤ i → j < k → inputs k < inputs j)

/-- Representation invariant tying a `SlidingHold` to the list `D` of window
record indices it currently stores: the live span starts at ring position
`U` (the upper index) and extends to `U + |D| - 1` (mod `BufferLineSize`,
the lower index), holding the input values and expiries (`index + length`)
of the records in order. -/
structure HoldRepr {α : Type} [LinearOrder α] (inputs : ℕ → α) (L : ℕ)
    (h : SlidingHold α) (U : ℕ) (D : List ℕ) : Prop where
  hU : h.mUpperIndex = U
  hUlt : U < BufferLineSize
  hlen1 : 1 ≤ D.length
  hlenN : D.length ≤ BufferLineSize - 1
  hlow : h.mLowerIndex = (U + (D.length - 1)) % BufferLineSize
  hL : h.mLength = L
  hval : ∀ t, t < D.length →
    h.mValues ((U + t) % BufferLineSize) = inputs (D.getD t 0)
  hexp : ∀ t, t < D.length →
    h.mExpiries ((U + t) % BufferLineSize) = D.getD t 0 + L

/-! ## Compressor (`core/mastering.cpp`)

The float control path is modelled over `ℝ` with the real `exp`/`log` in
place of the float transcendentals.  `FloatBufferLine` channel buffers and
delay lines are the `std::span` views the code operates on, as `List ℝ`;
the member arrays `mSideChain`/`mCrestFactor` are total functions `ℕ → ℝ`. -/

/-- Modelled from the spec: `lerpf` is declared in `core/alnumeric.h`, which
is not among the sources; it is the linear interpolation
`val1 + (val2 - val1) * mu` used for all the exponential smoothing below
("smooths toward the instantaneous target with the ... coefficient"). -/
noncomputable def lerpf (val1 val2 mu : ℝ) : ℝ := val1 + (val2 - val1) * mu

/-- `std::clamp(v, lo, hi)` on floats. -/
noncomputable def clampf (v lo hi : ℝ) : ℝ := min (max v lo) hi

/-- The automation flag bits passed to (and stored by) `Compressor::Create`
(`FlagBits` is a `std::bitset`; `mAuto` stores the tested bits). -/
structure AutoFlags where
  Knee : Bool
  Attack : Bool
  Release : Bool
  PostGain : Bool
  Declip : Bool
deriving Repr, DecidableEq

/-- Modelled from the spec: the enumerators `AutoKnee, AutoAttack, ...` are
declared in `core/mastering.h`, which is not among the sources.  They are
the bit positions of the automation flags in declaration order (the spec
lists them as "{auto-knee, auto-attack, auto-release, auto-post-gain,
auto-declip}"), so as a plain C++ enumeration `AutoKnee` is the first
enumerator and has value 0.  `Compressor::Create` evaluates the bare
enumerator (not the flag bit) in `if(AutoKnee)`. -/
def AutoKneeEnumerator : ℕ := 0

structure Compressor where
  mAuto : AutoFlags
  mLookAhead : ℕ
  mPreGain : ℝ
  mPostGain : ℝ
  mThreshold : ℝ
  mSlope : ℝ
  mKnee : ℝ
  mAttack : ℝ
  mRelease : ℝ
  mSideChain : ℕ → ℝ
  mCrestFactor : ℕ → ℝ
  mHold : Option (SlidingHold (WithBot ℝ))
  mDelay : List (List ℝ)
  mCrestCoeff : ℝ
  mGainEstimate : ℝ
  mAdaptCoeff : ℝ
  mLastPeakSq : ℝ
  mLastRmsSq : ℝ
  mLastRelease : ℝ
  mLastAttack : ℝ
  mLastGainDev : ℝ

namespace Compressor

/-- `Compressor::Create`.  Time arguments are converted to sample counts:
`static_cast<uint>(std::clamp(std::round(t * SampleRate), 0, 1023))` is
rounding followed by an integer clamp to `[0, BufferLineSize - 1]`. -/
noncomputable def Create (NumChans : ℕ) (SampleRate : ℝ) (autoflags : AutoFlags)
    (LookAheadTime HoldTime PreGainDb PostGainDb ThresholdDb Ratio KneeDb
      AttackTime ReleaseTime : ℝ) : Compressor :=
  let lookAhead : ℕ :=
    min (round (LookAheadTime * SampleRate)).toNat (BufferLineSize - 1)
  let hold : ℕ :=
    min (round (HoldTime * SampleRate)).toNat (BufferLineSize - 1)
  let threshold : ℝ := Real.log 10 / 20 * ThresholdDb
  -- `if(AutoKnee) Comp->mSlope = -1.0f;` tests the enumerator constant, not
  -- `autoflags.test(AutoKnee)`.
  let slope : ℝ :=
    if AutoKneeEnumerator ≠ 0 then -1 else 1 / max 1 Ratio - 1
  { mAuto :=
      { Knee := autoflags.Knee
        Attack := autoflags.Attack
        Release := autoflags.Release
        PostGain := autoflags.PostGain
        Declip := autoflags.PostGain && autoflags.Declip }
    mLookAhead := lookAhead
    mPreGain := (10 : ℝ) ^ (PreGainDb / 20)
    mPostGain := Real.log 10 / 20 * PostGainDb
    mThreshold := threshold
    mSlope := slope
    mKnee := max 0 (Real.log 10 / 20 * KneeDb)
    mAttack := max 1 (AttackTime * SampleRate)
    mRelease := max 1 (ReleaseTime * SampleRate)
    mSideChain := fun _ => 0
    mCrestFactor := fun _ => 0
    mHold :=
      if 0 < lookAhead ∧ 1 < hold then
        some (initHold hold ((0 : ℝ) : WithBot ℝ))
      else none
    mDelay :=
      if 0 < lookAhead then
        List.replicate NumChans (List.replicate lookAhead (0 : ℝ))
      else []
    mCrestCoeff := Real.exp (-1 / (0.200 * SampleRate))
    mGainEstimate := threshold * -0.5 * slope
    mAdaptCoeff := Real.exp (-1 / (2 * SampleRate))
    mLastPeakSq := 0
    mLastRmsSq := 0
    mLastRelease := 0
    mLastAttack := 0
    mLastGainDev := 0 }

/-- `Compressor::linkChannels`: the side-chain at `[mLookAhead,
mLookAhead + SamplesToDo)` becomes the per-position maximum of the absolute
values across all channels (`fill_n(0)` then a running `max(s, fabs(x))`
per channel). -/
noncomputable def linkChannels (c : Compressor) (SamplesToDo : ℕ)
    (OutBuffer : List (List ℝ)) : Compressor :=
  { c with
    mSideChain := fun j =>
      if c.mLookAhead ≤ j ∧ j < c.mLookAhead + SamplesToDo then
        OutBuffer.foldl (fun s ch => max s |ch.getD (j - c.mLookAhead) 0|) 0
      else c.mSideChain j }

/-- One sample of `Compressor::crestDetector`'s `calc_crest`: returns the
updated `(y2_peak, y2_rms)`. -/
noncomputable def calc_crest (a_crest x_abs y2_peak y2_rms : ℝ) : ℝ × ℝ :=
  let x2 := clampf (x_abs * x_abs) 0.000001 1000000
  (max x2 (lerpf x2 y2_peak a_crest), lerpf x2 y2_rms a_crest)

/-- The crest-factor loop: squared crest factors written to `mCrestFactor`
plus the final `(y2_peak, y2_rms)` trackers. -/
noncomputable def crestFold (a_crest : ℝ) :
    List ℝ → ℝ → ℝ → List ℝ × ℝ × ℝ
  | [], y2_peak, y2_rms => ([], y2_peak, y2_rms)
  | x :: xs, y2_peak, y2_rms =>
    let pr := calc_crest a_crest x y2_peak y2_rms
    let rest := crestFold a_crest xs pr.1 pr.2
    (pr.1 / pr.2 :: rest.1, rest.2)

/-- `Compressor::crestDetector`. -/
noncomputable def crestDetector (c : Compressor) (SamplesToDo : ℕ) :
    Compressor :=
  let xs := (List.range SamplesToDo).map fun t => c.mSideChain (c.mLookAhead + t)
  let r := crestFold c.mCrestCoeff xs c.mLastPeakSq c.mLastRmsSq
  { c with
    mCrestFactor := fun j =>
      if j < SamplesToDo then r.1.getD j 0 else c.mCrestFactor j
    mLastPeakSq := r.2.1
    mLastRmsSq := r.2.2 }

/-- `Compressor::peakDetector`: clamp to `1e-6` and convert the side-chain
to the log domain in place. -/
noncomputable def peakDetector (c : Compressor) (SamplesToDo : ℕ) :
    Compressor :=
  { c with
    mSideChain := fun j =>
      if c.mLookAhead ≤ j ∧ j < c.mLookAhead + SamplesToDo then
        Real.log (max 0.000001 (c.mSideChain j))
      else c.mSideChain j }

/-- The loop of `Compressor::peakHoldDetector`: each side-chain value is
log-converted and routed through the sliding hold at sample index
`i = 0, 1, ...`.  The written-back float is the hold's return value; its
`-inf` initialization sentinel is replaced at the very first update and
never returned, so the `WithBot` default is irrelevant. -/
noncomputable def peakHoldFold :
    List ℝ → SlidingHold (WithBot ℝ) → ℕ → SlidingHold (WithBot ℝ) × List ℝ
  | [], h, _ => (h, [])
  | x :: xs, h, i =>
    let x_G := Real.log (max 0.000001 x)
    let r := UpdateSlidingHold h i ((x_G : ℝ) : WithBot ℝ)
    let rest := peakHoldFold xs r.1 (i + 1)
    (rest.1, r.2.unbot' 0 :: rest.2)

/-- `Compressor::peakHoldDetector` (caller guarantees `mHold` is set). -/
noncomputable def peakHoldDetector (c : Compressor) (SamplesToDo : ℕ) :
    Compressor :=
  match c.mHold with
  | none => c
  | some h =>
    let xs := (List.range SamplesToDo).map fun t => c.mSideChain (c.mLookAhead + t)
    let r := peakHoldFold xs h 0
    { c with
      mSideChain := fun j =>
        if c.mLookAhead ≤ j ∧ j < c.mLookAhead + SamplesToDo then
          r.2.getD (j - c.mLookAhead) 0
        else c.mSideChain j
      mHold := some (ShiftSlidingHold r.1 SamplesToDo) }

/-- The per-call locals of `Compressor::gainCompressor` that persist from
sample to sample within a block. -/
structure GainState where
  knee : ℝ
  t_att : ℝ
  a_att : ℝ
  t_rel : ℝ
  a_rel : ℝ
  y_1 : ℝ
  y_L : ℝ
  c_dev : ℝ
  postGain : ℝ

/-- The soft-knee static compression curve (the "gain computer" step of
`gainCompressor`): input is the log-domain level over threshold. -/
noncomputable def staticCurve (knee x_over : ℝ) : ℝ :=
  let knee_h := 0.5 * knee
  if x_over ≤ -knee_h then 0
  else if |x_over| < knee_h then
    (x_over + knee_h) * (x_over + knee_h) / (2 * knee)
  else x_over

/-- One sample of `Compressor::gainCompressor`'s transform: `s` is the
side-chain array as it was at the start of the call (reads are never
aliased by earlier writes: sample `t` reads positions `t` and
`mLookAhead + t`, and writes position `t`), `crest` is `mCrestFactor`.
Returns the updated per-call state and the linear gain written back. -/
noncomputable def gainSample (c : Compressor) (s crest : ℕ → ℝ) (t : ℕ)
    (g : GainState) : GainState × ℝ :=
  let knee :=
    if c.mAuto.Knee then max 0 (2.5 * (g.c_dev + c.mGainEstimate)) else g.knee
  let x_over := s (c.mLookAhead + t) - c.mThreshold
  let y_G := staticCurve knee x_over
  let t_att := if c.mAuto.Attack then 2 * c.mAttack / crest t else g.t_att
  let a_att := if c.mAuto.Attack then Real.exp (-1 / t_att) else g.a_att
  let t_rel :=
    if c.mAuto.Release then 2 * c.mRelease / crest t - t_att else g.t_rel
  let a_rel := if c.mAuto.Release then Real.exp (-1 / t_rel) else g.a_rel
  let x_L := -c.mSlope * y_G
  let y_1 := max x_L (lerpf x_L g.y_1 a_rel)
  let y_L := lerpf y_1 g.y_L a_att
  let c_dev0 := lerpf (-(y_L + c.mGainEstimate)) g.c_dev c.mAdaptCoeff
  -- clipping reduction is nested inside `if(autoPostGain)`
  let c_dev :=
    if c.mAuto.PostGain && c.mAuto.Declip then
      max c_dev0 (s t - y_L - c.mThreshold - c.mGainEstimate)
    else c_dev0
  let postGain :=
    if c.mAuto.PostGain then -(c_dev + c.mGainEstimate) else g.postGain
  ({ knee := knee, t_att := t_att, a_att := a_att, t_rel := t_rel
     a_rel := a_rel, y_1 := y_1, y_L := y_L, c_dev := c_dev
     postGain := postGain }, Real.exp (postGain - y_L))

/-- The transform of `gainCompressor` over sample indices `ts`. -/
noncomputable def gainFold (c : Compressor) (s crest : ℕ → ℝ) :
    List ℕ → GainState → GainState × List ℝ
  | [], g => (g, [])
  | t :: ts, g =>
    let r := gainSample c s crest t g
    let rest := gainFold c s crest ts r.1
    (rest.1, r.2 :: rest.2)

/-- The initial per-call locals of `gainCompressor`. -/
noncomputable def gainInit (c : Compressor) : GainState :=
  { knee := c.mKnee
    t_att := c.mAttack
    a_att := Real.exp (-1 / c.mAttack)
    t_rel := c.mRelease - c.mAttack
    a_rel := Real.exp (-1 / (c.mRelease - c.mAttack))
    y_1 := c.mLastRelease
    y_L := c.mLastAttack
    c_dev := c.mLastGainDev
    postGain := c.mPostGain }

/-- `Compressor::gainCompressor`: linear gains overwrite
`mSideChain[0..SamplesToDo)` and the smoothing state is stored back. -/
noncomputable def gainCompressor (c : Compressor) (SamplesToDo : ℕ) :
    Compressor :=
  let r := gainFold c c.mSideChain c.mCrestFactor (List.range SamplesToDo)
    (gainInit c)
  { c with
    mSideChain := fun j =>
      if j < SamplesToDo then r.2.getD j 0 else c.mSideChain j
    mLastRelease := r.1.y_1
    mLastAttack := r.1.y_L
    mLastGainDev := r.1.c_dev }

/-- `std::rotate(first, first + m, last)` on a whole list: the elements from
position `m` on move to the front. -/
def rotateAt {α : Type} (l : List α) (m : ℕ) : List α := l.drop m ++ l.take m

/-- `Compressor::signalDelay` for one channel: `inout` is the block's first
`SamplesToDo` samples, `delaybuf` the channel's delay line of length
`mLookAhead`.  Returns the delayed block and the updated delay line,
mirroring the two rotate/swap branches. -/
def signalDelayChan {α : Type} (SamplesToDo lookAhead : ℕ)
    (inout delaybuf : List α) : List α × List α :=
  if lookAhead ≤ SamplesToDo then
    -- rotate the last `lookAhead` samples to the front, then swap them with
    -- the delay line
    let rotated := rotateAt inout (SamplesToDo - lookAhead)
    (delaybuf.take lookAhead ++ rotated.drop lookAhead,
     rotated.take lookAhead ++ delaybuf.drop lookAhead)
  else
    -- swap the whole block into the delay line, then rotate the delay line
    (delaybuf.take SamplesToDo,
     rotateAt (inout ++ delaybuf.drop SamplesToDo) SamplesToDo)

/-- `Compressor::signalDelay` over all channels (one delay line each). -/
def signalDelay (c : Compressor) (SamplesToDo : ℕ)
    (OutBuffer : List (List ℝ)) : Compressor × List (List ℝ) :=
  let pairs :=
    List.zipWith (fun ch dl => signalDelayChan SamplesToDo c.mLookAhead ch dl)
      OutBuffer c.mDelay
  ({ c with mDelay := pairs.map Prod.snd }, pairs.map Prod.fst)

/-- `Compressor::process`: one audio callback.  `InOut` holds each channel's
first `SamplesToDo` samples; the returned list is the processed (in C++:
in-place mutated) content. -/
noncomputable def process (c : Compressor) (SamplesToDo : ℕ)
    (InOut : List (List ℝ)) : Compressor × List (List ℝ) :=
  let buf :=
    if c.mPreGain = 1 then InOut
    else InOut.map fun ch => ch.map fun x => x * c.mPreGain
  let c1 := linkChannels c SamplesToDo buf
  let c2 :=
    if c1.mAuto.Attack || c1.mAuto.Release then crestDetector c1 SamplesToDo
    else c1
  let c3 :=
    if c2.mHold.isSome then peakHoldDetector c2 SamplesToDo
    else peakDetector c2 SamplesToDo
  let c4 := gainCompressor c3 SamplesToDo
  let dres :=
    if c4.mDelay.isEmpty then (c4, buf) else signalDelay c4 SamplesToDo buf
  let c5 := dres.1
  let gains := (List.range SamplesToDo).map c5.mSideChain
  let out := dres.2.map fun ch => List.zipWith (fun g x => g * x) gains ch
  -- carry the unconsumed look-ahead tail of the side-chain to its front
  let c6 :=
    { c5 with
      mSideChain := fun j =>
        if j < c5.mLookAhead then c5.mSideChain (SamplesToDo + j)
        else c5.mSideChain j }
  (c6, out)

/-- Iterated `process` calls: returns the final compressor and the list of
output blocks. -/
noncomputable def runProcess :
    Compressor → List (ℕ × List (List ℝ)) → Compressor × List (List (List ℝ))
  | c, [] => (c, [])
  | c, (n, blk) :: rest =>
    let r := process c n blk
    let rr := runProcess r.1 rest
    (rr.1, r.2 :: rr.2)

end Compressor

/-- A creation passing only the auto-declip automation flag (threshold 0 dB,
ratio 1, no look-ahead/hold/knee, 1 Hz, 1 s attack/release). -/
noncomputable def declipOnlyCompressor : Compressor :=
  Compressor.Create 1 1 ⟨false, false, false, false, true⟩ 0 0 0 0 0 1 0 1 1

/-- The same creation with both auto-post-gain and auto-declip passed. -/
noncomputable def postgainDeclipCompressor : Compressor :=
  Compressor.Create 1 1 ⟨false, false, false, true, true⟩ 0 0 0 0 0 1 0 1 1

/-- The relation maintained between two automation-free compressors created
with ratios `r1 ≤ r2`: identical configuration and identical state except
that the `r2` side has the steeper (more negative) slope, the dominating
smoothing state, and a side-chain agreeing on the carried look-ahead region
and on the untouched tail. -/
structure MonoRel (d₁ d₂ : Compressor) : Prop where
  hauto1 : d₁.mAuto = ⟨false, false, false, false, false⟩
  hauto2 : d₂.mAuto = ⟨false, false, false, false, false⟩
  hLA : d₂.mLookAhead = d₁.mLookAhead
  hLAlt : d₁.mLookAhead < BufferLineSize
  hpre : d₂.mPreGain = d₁.mPreGain
  hpost : d₂.mPostGain = d₁.mPostGain
  hthr : d₂.mThreshold = d₁.mThreshold
  hknee : d₂.mKnee = d₁.mKnee
  hknee0 : 0 ≤ d₁.mKnee
  hatt : d₂.mAttack = d₁.mAttack
  hrel : d₂.mRelease = d₁.mRelease
  hatt0 : 0 < d₁.mAttack
  hattrel : d₁.mAttack < d₁.mRelease
  hslope : d₂.mSlope ≤ d₁.mSlope
  hslope0 : d₁.mSlope ≤ 0
  hhold : d₂.mHold = d₁.mHold
  hdelay : d₂.mDelay = d₁.mDelay
  hcrest : d₂.mCrestFactor = d₁.mCrestFactor
  hsc : ∀ j, j < d₁.mLookAhead ∨ BufferLineSize ≤ j →
    d₂.mSideChain j = d₁.mSideChain j
  hy1 : d₁.mLastRelease ≤ d₂.mLastRelease
  hyL : d₁.mLastAttack ≤ d₂.mLastAttack

/-- A creation with only the auto-post-gain automation flag: one channel,
10 Hz sample rate, no look-ahead or hold, unity pre-gain, 0 dB post-gain,
-40 dB threshold, no knee, 100 s attack, 200 s release, ratio `r`. -/
noncomputable def postgainOnlyCompressor (r : ℝ) : Compressor :=
  Compressor.Create 1 0.1 ⟨false, false, false, true, false⟩ 0 0 0 0 (-40) r 0
    100 200

/-! ## Theorems -/

/-! ### Ring buffer lemmas -/

theorem land_mask_eq_mod (x k : ℕ) : x &&& (2 ^ k - 1) = x % 2 ^ k :=
  Nat.and_pow_two_sub_one_eq_mod x k

/-- The unsigned cursor difference is invariant under advancing both cursors
by the same amount (with wraparound). -/
theorem usub64_shift (w r n : ℕ) :
    usub64 ((w + n) % WORD) ((r + n) % WORD) = usub64 w r := by
  unfold usub64 WORD
  omega

/-- **C4.** `RingBuffer::Create(n, elemSize, limitWrites)` yields a capacity
that is a power of two and at least `n` (strictly greater: it rounds up even
when `n` is already a power of two); creating a Transport for 100 elements
of 4 bytes with `limitWrites = true` gives capacity 128 with one reserved
slot and `writeSpace() = 127`; after writing 50 elements `readSpace() = 50`
and `writeSpace() = 77`; after reading 20 elements `readSpace() = 30`. -/
theorem c4_transport_scenario :
    (∀ (sz elem_sz : ℕ) (lw : Bool),
      (RingBuffer.Create sz elem_sz lw).capacity = 2 ^ Nat.size sz ∧
      sz < (RingBuffer.Create sz elem_sz lw).capacity) ∧
    (RingBuffer.Create 100 4 true).capacity = 128 ∧
    (RingBuffer.Create 100 4 true).capacity
        - (RingBuffer.Create 100 4 true).mWriteSize = 1 ∧
    (RingBuffer.Create 100 4 true).writeSpace = 127 ∧
    ((RingBuffer.Create 100 4 true).write 50).2 = 50 ∧
    ((RingBuffer.Create 100 4 true).write 50).1.readSpace = 50 ∧
    ((RingBuffer.Create 100 4 true).write 50).1.writeSpace = 77 ∧
    (((RingBuffer.Create 100 4 true).write 50).1.read 20).2 = 20 ∧
    (((RingBuffer.Create 100 4 true).write 50).1.read 20).1.readSpace = 30 := by
  have hsize : Nat.size 100 = 7 := by
    have h1 : Nat.size 100 ≤ 7 := Nat.size_le.mpr (by norm_num)
    have h2 : 6 < Nat.size 100 := Nat.lt_size.mpr (by norm_num)
    omega
  have hc : RingBuffer.Create 100 4 true = ⟨0, 0, 127, 127, 4⟩ := by
    simp [RingBuffer.Create, hsize]
  refine ⟨fun sz elem_sz lw => ⟨?_, ?_⟩, ?_, ?_, ?_, ?_, ?_, ?_, ?_, ?_⟩
  · show (RingBuffer.Create sz elem_sz lw).mSizeMask + 1 = 2 ^ Nat.size sz
    have h2 : 1 ≤ 2 ^ Nat.size sz := Nat.one_le_two_pow
    simp only [RingBuffer.Create]
    omega
  · have h := Nat.lt_size_self sz
    show sz < (RingBuffer.Create sz elem_sz lw).mSizeMask + 1
    have h2 : 1 ≤ 2 ^ Nat.size sz := Nat.one_le_two_pow
    simp only [RingBuffer.Create]
    omega
  all_goals rw [hc]
  all_goals decide

/-- **C10.** Ring-buffer cursor arithmetic under machine-word wraparound:
whenever the unsigned difference `(w - r) mod 2^64` is at most `mSizeMask`
(a power of two minus one), `readSpace()` returns exactly that difference
and `writeSpace()` returns `mWriteSize` minus it; `readAdvance`/
`writeAdvance` add modulo `2^64`; and the cursor difference — hence both
space queries — is unaffected by both cursors having wrapped past `2^64`. -/
theorem c10_cursor_wraparound_safe :
    (∀ (rb : RingBuffer) (k : ℕ), rb.mSizeMask = 2 ^ k - 1 →
      usub64 rb.mWritePtr rb.mReadPtr ≤ rb.mSizeMask →
      rb.readSpace = usub64 rb.mWritePtr rb.mReadPtr ∧
      rb.writeSpace = rb.mWriteSize - usub64 rb.mWritePtr rb.mReadPtr) ∧
    (∀ (rb : RingBuffer) (n : ℕ),
      (rb.readAdvance n).mReadPtr = (rb.mReadPtr + n) % WORD ∧
      (rb.writeAdvance n).mWritePtr = (rb.mWritePtr + n) % WORD) ∧
    (∀ (rb : RingBuffer) (n : ℕ),
      ((rb.readAdvance n).writeAdvance n).readSpace = rb.readSpace ∧
      ((rb.readAdvance n).writeAdvance n).writeSpace = rb.writeSpace) := by
  refine ⟨fun rb k hmask hle => ?_, fun rb n => ⟨rfl, rfl⟩, fun rb n => ?_⟩
  · have hmod : usub64 rb.mWritePtr rb.mReadPtr < 2 ^ k := by
      have h2 : 1 ≤ 2 ^ k := Nat.one_le_two_pow
      omega
    have : rb.readSpace = usub64 rb.mWritePtr rb.mReadPtr := by
      rw [RingBuffer.readSpace, hmask, land_mask_eq_mod, Nat.mod_eq_of_lt hmod]
    exact ⟨this, by rw [RingBuffer.writeSpace, this]⟩
  · have h : ((rb.readAdvance n).writeAdvance n).readSpace = rb.readSpace := by
      show usub64 ((rb.mWritePtr + n) % WORD) ((rb.mReadPtr + n) % WORD)
            &&& rb.mSizeMask = _
      rw [usub64_shift]; rfl
    exact ⟨h, by rw [RingBuffer.writeSpace, h]; rfl⟩

/-- Witness for C10 at wrapped cursor values `2^64 - 5` / `2^64 - 10`
(write cursor ahead by 5 across the wrap boundary). -/
theorem c10_cursor_wraparound_safe_witness :
    (RingBuffer.mk (WORD - 5) (WORD - 10) 127 127 4).mSizeMask = 2 ^ 7 - 1 ∧
    usub64 (WORD - 5) (WORD - 10) ≤ 127 ∧
    (RingBuffer.mk (WORD - 5) (WORD - 10) 127 127 4).readSpace
      = usub64 (WORD - 5) (WORD - 10) :=
  ⟨by decide, by decide,
    (c10_cursor_wraparound_safe.1 (RingBuffer.mk (WORD - 5) (WORD - 10) 127 127 4)
      7 (by decide) (by decide)).1⟩

/-! ### Compressor creation (C1) -/

/-- **C1** (the code, evaluated at the failing input): creating a compressor
with the auto-knee flag enabled and `Ratio = 2` stores
`mSlope = 1/max(1, 2) - 1 = -1/2`, not the fixed limiter value `-1`: the
source's `if(AutoKnee)` tests the enumerator constant (value 0), not the
flag, so the limiter override is dead code and the stored slope always
equals `1/max(1, Ratio) - 1`. -/
theorem c1_autoknee_limiter_override_dead :
    (Compressor.Create 1 1 ⟨true, false, false, false, false⟩
        0 0 0 0 0 2 0 1 1).mAuto.Knee = true ∧
    (Compressor.Create 1 1 ⟨true, false, false, false, false⟩
        0 0 0 0 0 2 0 1 1).mSlope = 1 / max 1 (2 : ℝ) - 1 ∧
    (Compressor.Create 1 1 ⟨true, false, false, false, false⟩
        0 0 0 0 0 2 0 1 1).mSlope ≠ -1 := by
  refine ⟨rfl, by simp [Compressor.Create, AutoKneeEnumerator], ?_⟩
  simp only [Compressor.Create, AutoKneeEnumerator]
  norm_num

/-! ### Static curve (C6) -/

/-- **C6.** The static-curve gain reduction of `gainCompressor` before
smoothing (`x_L = -slope * y_G`, with `slope = 1/max(1, ratio) - 1` as
stored by `Create`): zero at or below `threshold - knee/2`; the quadratic
blend `(x_over + knee/2)^2 / (2*knee)` scaled by `-slope` inside the knee;
and linear in `x_over` with coefficient `1 - 1/max(1, ratio)` at or above
`threshold + knee/2`. -/
theorem staticCurve_eq (knee xo : ℝ) :
    Compressor.staticCurve knee xo =
      if xo ≤ -(knee / 2) then 0
      else if |xo| < knee / 2 then
        (xo + knee / 2) * (xo + knee / 2) / (2 * knee)
      else xo := by
  have hh : (0.5 : ℝ) * knee = knee / 2 := by ring
  unfold Compressor.staticCurve
  rw [hh]

theorem c6_static_compression_curve (Ratio threshold x knee slope : ℝ)
    (hknee : 0 ≤ knee) (hslope : slope = 1 / max 1 Ratio - 1) :
    (x - threshold ≤ -(knee / 2) →
      -slope * Compressor.staticCurve knee (x - threshold) = 0) ∧
    (|x - threshold| < knee / 2 →
      -slope * Compressor.staticCurve knee (x - threshold)
        = -slope * ((x - threshold + knee / 2) ^ 2 / (2 * knee))) ∧
    (knee / 2 ≤ x - threshold →
      -slope * Compressor.staticCurve knee (x - threshold)
        = (1 - 1 / max 1 Ratio) * (x - threshold)) := by
  set xo := x - threshold with hxo
  refine ⟨fun h1 => ?_, fun h2 => ?_, fun h3 => ?_⟩
  · rw [staticCurve_eq, if_pos h1, mul_zero]
  · have hpos : -(knee / 2) < xo := (abs_lt.mp h2).1
    rw [staticCurve_eq, if_neg (by linarith), if_pos h2]
    ring
  · rcases eq_or_lt_of_le h3 with heq | hlt
    · -- boundary: if `knee = 0` and `xo = 0` both sides vanish
      by_cases hz : xo ≤ -(knee / 2)
      · have hk0 : knee = 0 := by linarith
        have hx0 : xo = 0 := by
          rw [hk0] at heq hz
          simp only [zero_div, neg_zero] at heq hz
          linarith
        rw [staticCurve_eq, if_pos hz, hx0]
        ring
      · rw [staticCurve_eq, if_neg hz,
          if_neg (by rw [abs_of_nonneg (by linarith : (0:ℝ) ≤ xo)]; push_neg; linarith)]
        rw [hslope]; ring
    · have hk : -(knee / 2) < xo := by
        nlinarith [hknee]
      rw [staticCurve_eq, if_neg (by push_neg; linarith),
        if_neg (by rw [abs_of_nonneg (by nlinarith : (0:ℝ) ≤ xo)]; push_neg; linarith)]
      rw [hslope]; ring

/-! ### Declip automation (C2) -/

/-- **C2** (counterexample): with only the auto-declip flag passed at
creation, the stored declip flag is `false` and the declip deviation clamp
is not applied during gain computation even when the compressed output would
still clip: at side-chain level `log 10` over a 0-threshold the computed
deviation stays `0` although `input - y_L - threshold - gainEstimate =
log 10 > 0`, so the claimed clamp (which would raise the deviation to
`log 10`) did not happen. -/
theorem c2_declip_not_independent :
    declipOnlyCompressor.mAuto.Declip = false ∧
    (Compressor.gainSample declipOnlyCompressor (fun _ => Real.log 10)
        (fun _ => 0) 0 (Compressor.gainInit declipOnlyCompressor)).1.c_dev
      = 0 ∧
    0 < Real.log 10
        - (Compressor.gainSample declipOnlyCompressor (fun _ => Real.log 10)
            (fun _ => 0) 0 (Compressor.gainInit declipOnlyCompressor)).1.y_L
        - declipOnlyCompressor.mThreshold - declipOnlyCompressor.mGainEstimate := by
  have hlog : 0 < Real.log 10 := Real.log_pos (by norm_num)
  have hflags : declipOnlyCompressor.mAuto
      = ⟨false, false, false, false, false⟩ := by
    simp [declipOnlyCompressor, Compressor.Create]
  have hthr : declipOnlyCompressor.mThreshold = 0 := by
    simp [declipOnlyCompressor, Compressor.Create]
  have hslope : declipOnlyCompressor.mSlope = 0 := by
    simp [declipOnlyCompressor, Compressor.Create, AutoKneeEnumerator]
  have hest : declipOnlyCompressor.mGainEstimate = 0 := by
    simp [declipOnlyCompressor, Compressor.Create, AutoKneeEnumerator]
  have hlr : declipOnlyCompressor.mLastRelease = 0 := by
    simp [declipOnlyCompressor, Compressor.Create]
  have hla : declipOnlyCompressor.mLastAttack = 0 := by
    simp [declipOnlyCompressor, Compressor.Create]
  have hld : declipOnlyCompressor.mLastGainDev = 0 := by
    simp [declipOnlyCompressor, Compressor.Create]
  refine ⟨by rw [hflags], ?_, ?_⟩
  · simp [Compressor.gainSample, Compressor.gainInit, hflags, hthr, hslope,
      hest, hlr, hla, hld, lerpf]
  · have hyL : (Compressor.gainSample declipOnlyCompressor
        (fun _ => Real.log 10) (fun _ => 0) 0
        (Compressor.gainInit declipOnlyCompressor)).1.y_L = 0 := by
      simp [Compressor.gainSample, Compressor.gainInit, hflags, hthr, hslope,
        hest, hlr, hla, hld, lerpf]
    rw [hyL, hthr, hest]
    linarith

/-- **C2** (amended): declip is not independent of auto-post-gain: the flag
stored at creation is the conjunction of the auto-post-gain and auto-declip
bits, and whenever both are set the gain computation replaces the smoothed
deviation by its clamp against `input - y_L - threshold - gainEstimate`
(so the deviation is raised whenever the compressed output would still
clip), regardless of the remaining flags. -/
theorem c2_declip_clamp_requires_autopostgain :
    (∀ (NumChans : ℕ) (SampleRate : ℝ) (fl : AutoFlags)
        (la hd pg pog th ra kn at_ re : ℝ),
      (Compressor.Create NumChans SampleRate fl la hd pg pog th ra kn at_
          re).mAuto.Declip = (fl.PostGain && fl.Declip)) ∧
    (∀ (cp : Compressor) (s crest : ℕ → ℝ) (t : ℕ)
        (gs : Compressor.GainState),
      cp.mAuto.PostGain = true → cp.mAuto.Declip = true →
      (Compressor.gainSample cp s crest t gs).1.c_dev
        = max
            (lerpf (-((Compressor.gainSample cp s crest t gs).1.y_L
                + cp.mGainEstimate)) gs.c_dev cp.mAdaptCoeff)
            (s t - (Compressor.gainSample cp s crest t gs).1.y_L
              - cp.mThreshold - cp.mGainEstimate)) := by
  constructor
  · intro NumChans SampleRate fl la hd pg pog th ra kn at_ re
    simp [Compressor.Create]
  · intro cp s crest t gs hpg hdc
    simp only [Compressor.gainSample, hpg, hdc, Bool.and_self, if_true,
      Bool.true_and, if_pos]

/-- Witness for the amended C2 at a concrete creation with both flags. -/
theorem c2_declip_clamp_requires_autopostgain_witness :
    postgainDeclipCompressor.mAuto.PostGain = true ∧
    postgainDeclipCompressor.mAuto.Declip = true ∧
    (Compressor.gainSample postgainDeclipCompressor (fun _ => 0) (fun _ => 0)
        0 (Compressor.gainInit postgainDeclipCompressor)).1.c_dev
      = max
          (lerpf (-((Compressor.gainSample postgainDeclipCompressor
              (fun _ => 0) (fun _ => 0) 0
              (Compressor.gainInit postgainDeclipCompressor)).1.y_L
              + postgainDeclipCompressor.mGainEstimate))
            (Compressor.gainInit postgainDeclipCompressor).c_dev
            postgainDeclipCompressor.mAdaptCoeff)
          ((0 : ℝ) - (Compressor.gainSample postgainDeclipCompressor
              (fun _ => 0) (fun _ => 0) 0
              (Compressor.gainInit postgainDeclipCompressor)).1.y_L
            - postgainDeclipCompressor.mThreshold
            - postgainDeclipCompressor.mGainEstimate) := by
  have hpg : postgainDeclipCompressor.mAuto.PostGain = true := by
    simp [postgainDeclipCompressor, Compressor.Create]
  have hdc : postgainDeclipCompressor.mAuto.Declip = true := by
    simp [postgainDeclipCompressor, Compressor.Create]
  exact ⟨hpg, hdc,
    c2_declip_clamp_requires_autopostgain.2 postgainDeclipCompressor
      (fun _ => 0) (fun _ => 0) 0
      (Compressor.gainInit postgainDeclipCompressor) hpg hdc⟩

/-! ### Look-ahead delay (C5) -/

open Compressor (signalDelayChan rotateAt)

/-- **C5.** `signalDelay` delays each channel by exactly `K = mLookAhead`
samples: after the call, output sample `t` equals the previously stored
delay-line sample for `t < K`, equals the current block's input sample
`t - K` for `t ≥ K`, and the delay line afterwards holds the most recent
`K` input samples in order (`(delay ++ input).drop n`) — in both the
`SamplesToDo ≥ K` and `SamplesToDo < K` branches; and the multichannel
`signalDelay` applies exactly this per-channel transform to every channel
with its own delay line. -/
theorem c5_signal_delay_alignment (K n : ℕ) (inout delaybuf : List ℝ)
    (hK : 0 < K) (hKB : K < BufferLineSize)
    (hlen : inout.length = n) (hdlen : delaybuf.length = K) :
    ((signalDelayChan n K inout delaybuf).1.length = n) ∧
    (∀ t, t < n → t < K →
      (signalDelayChan n K inout delaybuf).1.getD t 0 = delaybuf.getD t 0) ∧
    (∀ t, t < n → K ≤ t →
      (signalDelayChan n K inout delaybuf).1.getD t 0
        = inout.getD (t - K) 0) ∧
    ((signalDelayChan n K inout delaybuf).2 = (delaybuf ++ inout).drop n) ∧
    (∀ (c : Compressor) (chans : List (List ℝ)) (i : ℕ),
      i < chans.length → i < c.mDelay.length →
      (Compressor.signalDelay c n chans).2.getD i []
          = (signalDelayChan n c.mLookAhead (chans.getD i [])
              (c.mDelay.getD i [])).1 ∧
      (Compressor.signalDelay c n chans).1.mDelay.getD i []
          = (signalDelayChan n c.mLookAhead (chans.getD i [])
              (c.mDelay.getD i [])).2) := by
  have hchan : ∀ (c : Compressor) (chans : List (List ℝ)) (i : ℕ),
      i < chans.length → i < c.mDelay.length →
      (Compressor.signalDelay c n chans).2.getD i []
          = (signalDelayChan n c.mLookAhead (chans.getD i [])
              (c.mDelay.getD i [])).1 ∧
      (Compressor.signalDelay c n chans).1.mDelay.getD i []
          = (signalDelayChan n c.mLookAhead (chans.getD i [])
              (c.mDelay.getD i [])).2 := by
    intro c chans i hic hid
    have hzlen : i < (List.zipWith
        (fun ch dl => signalDelayChan n c.mLookAhead ch dl)
        chans c.mDelay).length := by
      rw [List.length_zipWith]; omega
    constructor
    · rw [Compressor.signalDelay]
      rw [List.getD_eq_getElem _ _ (by simpa using hzlen)]
      rw [List.getElem_map, List.getElem_zipWith,
        List.getD_eq_getElem _ _ hic, List.getD_eq_getElem _ _ hid]
    · rw [Compressor.signalDelay]
      rw [List.getD_eq_getElem _ _ (by simpa using hzlen)]
      rw [List.getElem_map, List.getElem_zipWith,
        List.getD_eq_getElem _ _ hic, List.getD_eq_getElem _ _ hid]
  by_cases hKn : K ≤ n
  · -- SamplesToDo ≥ lookAhead: rotate the block, swap its head with the line
    have hsd : signalDelayChan n K inout delaybuf =
        (delaybuf.take K ++ (rotateAt inout (n - K)).drop K,
         (rotateAt inout (n - K)).take K ++ delaybuf.drop K) := by
      rw [signalDelayChan, if_pos hKn]
    have htk : delaybuf.take K = delaybuf := by rw [← hdlen, List.take_length]
    have hdr : delaybuf.drop K = [] := by rw [← hdlen, List.drop_length]
    have hdl : (inout.drop (n - K)).length = K := by
      rw [List.length_drop, hlen]; omega
    have hrot : rotateAt inout (n - K)
        = inout.drop (n - K) ++ inout.take (n - K) := rfl
    have hrlen : (rotateAt inout (n - K)).length = n := by
      rw [hrot, List.length_append, List.length_drop, List.length_take, hlen]
      omega
    refine ⟨?_, ?_, ?_, ?_, hchan⟩
    · rw [hsd]
      simp only [List.length_append, List.length_take, List.length_drop,
        hdlen, hrlen]
      omega
    · intro t htn htK
      rw [hsd]
      simp only
      rw [htk, List.getD_eq_getElem _ _
          (by simp only [List.length_append, List.length_drop, hdlen, hrlen]; omega),
        List.getElem_append_left (by omega : t < delaybuf.length),
        List.getD_eq_getElem _ _ (by omega)]
    · intro t htn htK
      rw [hsd]
      simp only
      rw [htk, List.getD_eq_getElem _ _
          (by simp only [List.length_append, List.length_drop, hdlen, hrlen]; omega),
        List.getElem_append_right (by omega : delaybuf.length ≤ t)]
      rw [List.getElem_drop]
      have h1 : K + (t - delaybuf.length) = t := by omega
      simp only [hrot]
      rw [List.getElem_append_right (by omega : (inout.drop (n - K)).length ≤ K + (t - delaybuf.length))]
      rw [List.getElem_take]
      rw [List.getD_eq_getElem _ _ (by omega)]
      congr 1
      omega
    · rw [hsd]
      simp only [hdr, List.append_nil]
      have htl : (rotateAt inout (n - K)).take K = inout.drop (n - K) := by
        rw [hrot]
        exact List.take_left' hdl
      rw [htl]
      have hd2 : (delaybuf ++ inout).drop n
          = ((delaybuf ++ inout).drop K).drop (n - K) := by
        rw [List.drop_drop]
        congr 1
        omega
      rw [hd2, List.drop_left' hdlen]
  · -- SamplesToDo < lookAhead: swap the block into the line, rotate the line
    have hnK : n < K := by omega
    have hsd : signalDelayChan n K inout delaybuf =
        (delaybuf.take n,
         rotateAt (inout ++ delaybuf.drop n) n) := by
      rw [signalDelayChan, if_neg hKn]
    refine ⟨?_, ?_, ?_, ?_, hchan⟩
    · rw [hsd]
      simp only [List.length_take, hdlen]
      omega
    · intro t htn htK
      rw [hsd]
      simp only
      rw [List.getD_eq_getElem _ _ (by simp only [List.length_take, hdlen]; omega),
        List.getElem_take, List.getD_eq_getElem _ _ (by omega)]
    · intro t htn htK
      omega
    · rw [hsd]
      simp only [rotateAt]
      rw [List.drop_left' hlen, List.take_left' hlen,
        List.drop_append_of_le_length (by omega : n ≤ delaybuf.length)]

/-- Witness for C5 at `K = 1`, `n = 2`, block `[3, 4]`, delay line `[7]`. -/
theorem c5_signal_delay_alignment_witness :
    ((0 : ℕ) < 1 ∧ ([(3 : ℝ), 4]).length = 2 ∧ ([(7 : ℝ)]).length = 1) ∧
    (signalDelayChan 2 1 [(3 : ℝ), 4] [7]).2 = ([(7 : ℝ)] ++ [3, 4]).drop 2 :=
  ⟨⟨Nat.one_pos, rfl, rfl⟩,
    (c5_signal_delay_alignment 1 2 [(3 : ℝ), 4] [7] Nat.one_pos
      (by norm_num [BufferLineSize]) rfl rfl).2.2.2.1⟩

/-! ### Crest detector safety (C9) -/

/-- **C9.** `crestDetector`'s division is always safe: the squared sample is
clamped to `[1e-6, 1e6]`, the crest smoothing coefficient lies in `[0, 1)`
for any positive sample rate, and if on entry `0 ≤ mLastRmsSq ≤ mLastPeakSq`
(as a fresh compressor satisfies) then after any block the RMS-squared
tracker is strictly positive (strictly after at least one sample), the
peak-squared tracker stays at or above it, every stored squared crest
factor is `≥ 1`, and the entry invariant is re-established on exit. -/
theorem c9_crest_detector_division_safe :
    (∀ SampleRate : ℝ, 0 < SampleRate →
      0 < Real.exp (-1 / (0.200 * SampleRate)) ∧
        Real.exp (-1 / (0.200 * SampleRate)) < 1) ∧
    (∀ (a : ℝ) (xs : List ℝ) (peak rms : ℝ),
      0 ≤ a → a < 1 → 0 ≤ rms → rms ≤ peak →
      (0 ≤ (Compressor.crestFold a xs peak rms).2.2 ∧
        (Compressor.crestFold a xs peak rms).2.2
          ≤ (Compressor.crestFold a xs peak rms).2.1) ∧
      (xs ≠ [] → 0 < (Compressor.crestFold a xs peak rms).2.2) ∧
      (∀ cr ∈ (Compressor.crestFold a xs peak rms).1, 1 ≤ cr)) := by
  constructor
  · intro SampleRate hSR
    refine ⟨Real.exp_pos _, ?_⟩
    rw [Real.exp_lt_one_iff]
    have h2 : 0 < 0.200 * SampleRate := by nlinarith
    exact div_neg_of_neg_of_pos (by norm_num) h2
  · intro a xs
    induction xs with
    | nil =>
      intro peak rms ha0 ha1 hr0 hrp
      exact ⟨⟨hr0, hrp⟩, fun h => absurd rfl h, by simp [Compressor.crestFold]⟩
    | cons x rest ih =>
      intro peak rms ha0 ha1 hr0 hrp
      -- facts about one step
      have hx2lo : (0.000001 : ℝ) ≤ clampf (x * x) 0.000001 1000000 := by
        unfold clampf
        refine le_min (le_max_right _ _) (by norm_num)
      set x2 := clampf (x * x) 0.000001 1000000 with hx2
      have hrms : 0 < lerpf x2 rms a := by
        unfold lerpf
        nlinarith
      have hpk : lerpf x2 rms a ≤ max x2 (lerpf x2 peak a) := by
        refine le_trans ?_ (le_max_right _ _)
        unfold lerpf
        nlinarith
      have hcrest : 1 ≤ max x2 (lerpf x2 peak a) / lerpf x2 rms a :=
        (one_le_div hrms).mpr hpk
      have hstep : Compressor.crestFold a (x :: rest) peak rms
          = ((max x2 (lerpf x2 peak a) / lerpf x2 rms a)
              :: (Compressor.crestFold a rest (max x2 (lerpf x2 peak a))
                  (lerpf x2 rms a)).1,
             (Compressor.crestFold a rest (max x2 (lerpf x2 peak a))
                  (lerpf x2 rms a)).2) := by
        simp only [Compressor.crestFold, Compressor.calc_crest]
      have ihr := ih (max x2 (lerpf x2 peak a)) (lerpf x2 rms a) ha0 ha1
        (le_of_lt hrms) hpk
      rw [hstep]
      rcases rest with - | ⟨y, ys⟩
      · refine ⟨⟨le_of_lt hrms, hpk⟩, fun _ => hrms, ?_⟩
        intro cr hcr
        simp only [Compressor.crestFold, List.mem_singleton] at hcr
        rw [hcr]
        exact hcrest
      · refine ⟨ihr.1, fun _ => ihr.2.1 (by simp), ?_⟩
        intro cr hcr
        rcases List.mem_cons.mp hcr with h | h
        · rw [h]; exact hcrest
        · exact ihr.2.2 cr h

/-- Witness for C9 at coefficient `1/2`, block `[1]`, zero entry state. -/
theorem c9_crest_detector_division_safe_witness :
    ((0 : ℝ) < 1 ∧ (0 : ℝ) ≤ 1 / 2 ∧ (1 : ℝ) / 2 < 1) ∧
    0 < Real.exp (-1 / (0.200 * 1)) ∧
    0 < (Compressor.crestFold (1 / 2) [1] 0 0).2.2 :=
  ⟨⟨by norm_num, by norm_num, by norm_num⟩,
    (c9_crest_detector_division_safe.1 1 (by norm_num)).1,
    (c9_crest_detector_division_safe.2 (1 / 2) [1] 0 0 (by norm_num)
      (by norm_num) le_rfl le_rfl).2.1 (by simp)⟩

/-- Witness for C6 at `Ratio = 2`, `threshold = 0`, `x = 1`, `knee = 0`. -/
theorem c6_static_compression_curve_witness :
    (0 : ℝ) ≤ 0 ∧
    ((0 : ℝ) / 2 ≤ 1 - 0 →
      -(1 / max 1 (2 : ℝ) - 1) * Compressor.staticCurve 0 (1 - 0)
        = (1 - 1 / max 1 (2 : ℝ)) * (1 - 0)) :=
  ⟨le_refl 0,
    (c6_static_compression_curve 2 0 1 0 (1 / max 1 (2 : ℝ) - 1)
      (le_refl 0) rfl).2.2⟩

/-! ### Sliding-window maximum (C3)

The correctness proof connects the circular descending-maxima structure to
the list of *window records*: after processing inputs `0..i`, the live
entries are exactly the indices `j` of the window whose input strictly
dominates every later input of the window. -/

theorem mem_windowRecords {α : Type} [LinearOrder α] {inputs : ℕ → α}
    {L i j : ℕ} :
    j ∈ windowRecords inputs L i ↔
      j ≤ i ∧ i < j + L ∧ ∀ k, k ≤ i → j < k → inputs k < inputs j := by
  unfold windowRecords
  rw [List.mem_filter, List.mem_range]
  simp only [decide_eq_true_eq]
  constructor
  · rintro ⟨h1, h2, h3⟩
    exact ⟨by omega, h2, h3⟩
  · rintro ⟨h1, h2, h3⟩
    exact ⟨by omega, h2, h3⟩

theorem self_mem_windowRecords {α : Type} [LinearOrder α] (inputs : ℕ → α)
    {L : ℕ} (i : ℕ) (hL : 1 ≤ L) : i ∈ windowRecords inputs L i :=
  mem_windowRecords.mpr ⟨le_rfl, by omega, fun k hk hik => by omega⟩

theorem windowRecords_ne_nil {α : Type} [LinearOrder α] (inputs : ℕ → α)
    {L : ℕ} (i : ℕ) (hL : 1 ≤ L) : windowRecords inputs L i ≠ [] :=
  List.ne_nil_of_mem (self_mem_windowRecords inputs i hL)

theorem windowRecords_pairwise {α : Type} [LinearOrder α] (inputs : ℕ → α)
    (L i : ℕ) : (windowRecords inputs L i).Pairwise (· < ·) :=
  List.Pairwise.filter _ (List.pairwise_lt_range _)

theorem windowRecords_anti {α : Type} [LinearOrder α] {inputs : ℕ → α}
    {L i a b : ℕ} (ha : a ∈ windowRecords inputs L i)
    (hb : b ∈ windowRecords inputs L i) (hab : a < b) :
    inputs b < inputs a := by
  obtain ⟨hbi, -, -⟩ := mem_windowRecords.mp hb
  obtain ⟨-, -, h3⟩ := mem_windowRecords.mp ha
  exact h3 b hbi hab

/-- A strictly increasing list of naturals contained in `[a, b]` has at most
`b + 1 - a` elements. -/
theorem pairwise_lt_length_le (l : List ℕ) (hl : l.Pairwise (· < ·))
    (a b : ℕ) (hm : ∀ x ∈ l, a ≤ x ∧ x ≤ b) : l.length ≤ b + 1 - a := by
  classical
  have hnd : l.Nodup := hl.imp (fun h => Nat.ne_of_lt h)
  have hsub : l.toFinset ⊆ Finset.Icc a b := by
    intro x hx
    rw [List.mem_toFinset] at hx
    exact Finset.mem_Icc.mpr (hm x hx)
  have hcard := Finset.card_le_card hsub
  rw [List.toFinset_card_of_nodup hnd, Nat.card_Icc] at hcard
  exact hcard

theorem windowRecords_length_le {α : Type} [LinearOrder α] (inputs : ℕ → α)
    (L i : ℕ) : (windowRecords inputs L i).length ≤ L := by
  have h := pairwise_lt_length_le (windowRecords inputs L i)
    (windowRecords_pairwise inputs L i) (i + 1 - L) i ?_
  · omega
  · intro x hx
    obtain ⟨h1, h2, -⟩ := mem_windowRecords.mp hx
    omega

/-- One step of the record recurrence: the records after sample `i + 1` are
the surviving (unexpired, undominated) records after sample `i` plus the new
sample itself. -/
theorem windowRecords_succ {α : Type} [LinearOrder α] (inputs : ℕ → α)
    {L : ℕ} (i : ℕ) (hL : 1 ≤ L) :
    windowRecords inputs L (i + 1)
      = ((windowRecords inputs L i).filter fun j =>
          decide (i + 1 < j + L ∧ inputs (i + 1) < inputs j)) ++ [i + 1] := by
  unfold windowRecords
  rw [List.range_succ, List.filter_append, List.filter_filter]
  congr 1
  · apply List.filter_congr
    intro j hj
    rw [List.mem_range] at hj
    apply Bool.eq_iff_iff.mpr
    simp only [Bool.and_eq_true, decide_eq_true_eq]
    constructor
    · rintro ⟨h1, h2⟩
      refine ⟨⟨h1, h2 (i + 1) le_rfl (by omega)⟩, by omega, ?_⟩
      intro k hk hjk
      exact h2 k (by omega) hjk
    · rintro ⟨⟨h1, h2⟩, h3, h4⟩
      refine ⟨h1, ?_⟩
      intro k hk hjk
      rcases Nat.lt_or_ge k (i + 1) with h | h
      · exact h4 k (by omega) hjk
      · have : k = i + 1 := by omega
        rw [this]
        exact h2
  · rw [List.filter_cons, List.filter_nil]
    rw [if_pos]
    simp only [decide_eq_true_eq]
    exact ⟨by omega, fun k hk hik => by omega⟩

/-- The head of the record list attains the sliding-window maximum. -/
theorem windowRecords_headI_eq_windowMax {α : Type} [LinearOrder α]
    (inputs : ℕ → α) {L : ℕ} (i : ℕ) (hL : 1 ≤ L) :
    inputs (windowRecords inputs L i).headI = windowMax inputs L i := by
  classical
  have hne : (Finset.Icc (i - (L - 1)) i).Nonempty := by
    rw [Finset.nonempty_Icc]; omega
  -- the largest argmax witness of the window is a record
  have hmax : ∃ js ∈ Finset.Icc (i - (L - 1)) i,
      ∀ k ∈ Finset.Icc (i - (L - 1)) i, inputs k ≤ inputs js := by
    obtain ⟨j0, hj0, hj0e⟩ := Finset.exists_mem_eq_sup' hne inputs
    exact ⟨j0, hj0, fun k hk => hj0e ▸ Finset.le_sup' inputs hk⟩
  have hTne : (Finset.filter
      (fun j => ∀ k ∈ Finset.Icc (i - (L - 1)) i, inputs k ≤ inputs j)
      (Finset.Icc (i - (L - 1)) i)).Nonempty := by
    obtain ⟨js, hjs, hall⟩ := hmax
    exact ⟨js, Finset.mem_filter.mpr ⟨hjs, hall⟩⟩
  obtain ⟨hjmS, hjmMax⟩ := Finset.mem_filter.mp (Finset.max'_mem _ hTne)
  rw [Finset.mem_Icc] at hjmS
  have hjmRec : (Finset.filter
      (fun j => ∀ k ∈ Finset.Icc (i - (L - 1)) i, inputs k ≤ inputs j)
      (Finset.Icc (i - (L - 1)) i)).max' hTne ∈ windowRecords inputs L i := by
    refine mem_windowRecords.mpr ⟨hjmS.2, by omega, ?_⟩
    intro k hk hjk
    have hkS : k ∈ Finset.Icc (i - (L - 1)) i := by
      rw [Finset.mem_Icc]; omega
    rcases lt_or_eq_of_le (hjmMax k hkS) with h | h
    · exact h
    · exfalso
      have hkT : k ∈ Finset.filter
          (fun j => ∀ k' ∈ Finset.Icc (i - (L - 1)) i, inputs k' ≤ inputs j)
          (Finset.Icc (i - (L - 1)) i) := by
        refine Finset.mem_filter.mpr ⟨hkS, fun k' hk' => ?_⟩
        rw [h]
        exact hjmMax k' hk'
      have := Finset.le_max' _ k hkT
      omega
  -- the head of the records is minimal and value-maximal among records
  obtain ⟨hd, tl, hrec⟩ :=
    List.exists_cons_of_ne_nil (windowRecords_ne_nil inputs i hL)
  have hhead : (windowRecords inputs L i).headI = hd := by rw [hrec]; rfl
  have hhdmem : hd ∈ windowRecords inputs L i := by
    rw [hrec]; exact List.mem_cons_self _ _
  have hhdmin : ∀ b ∈ windowRecords inputs L i, hd ≤ b := by
    intro b hb
    have hp := windowRecords_pairwise inputs L i
    rw [hrec] at hp hb
    rcases List.mem_cons.mp hb with h | h
    · omega
    · exact le_of_lt ((List.pairwise_cons.mp hp).1 b h)
  obtain ⟨h1, h2, -⟩ := mem_windowRecords.mp hhdmem
  have hle1 : inputs hd ≤ windowMax inputs L i := by
    unfold windowMax
    exact Finset.le_sup' inputs (by rw [Finset.mem_Icc]; omega)
  have hge : windowMax inputs L i ≤ inputs hd := by
    have hjmle : inputs ((Finset.filter
        (fun j => ∀ k ∈ Finset.Icc (i - (L - 1)) i, inputs k ≤ inputs j)
        (Finset.Icc (i - (L - 1)) i)).max' hTne) ≤ inputs hd := by
      rcases eq_or_lt_of_le (hhdmin _ hjmRec) with h | h
      · rw [h]
      · exact le_of_lt (windowRecords_anti hhdmem hjmRec h)
    refine le_trans ?_ hjmle
    unfold windowMax
    exact Finset.sup'_le _ _ (fun b hb => hjmMax b hb)
  rw [hhead]
  exact le_antisymm hle1 hge

theorem bls_pos : 0 < BufferLineSize := by norm_num [BufferLineSize]

theorem modN_idem (a : ℕ) :
    a % BufferLineSize % BufferLineSize = a % BufferLineSize := by
  simp only [BufferLineSize]; omega

theorem modN_lt (a : ℕ) : a % BufferLineSize < BufferLineSize :=
  Nat.mod_lt _ bls_pos

theorem modN_base (a b : ℕ) :
    (a % BufferLineSize + b) % BufferLineSize = (a + b) % BufferLineSize :=
  Nat.mod_add_mod a BufferLineSize b

theorem modN_inj {U t s : ℕ} (ht : t < BufferLineSize)
    (hs : s < BufferLineSize)
    (h : (U + t) % BufferLineSize = (U + s) % BufferLineSize) : t = s := by
  simp only [BufferLineSize] at *
  omega

theorem modN_dec {U s : ℕ} (hs : 1 ≤ s) :
    ((U + s) % BufferLineSize + (BufferLineSize - 1)) % BufferLineSize
      = (U + (s - 1)) % BufferLineSize := by
  simp only [BufferLineSize] at *
  omega

theorem modN_zero {U : ℕ} (hU : U < BufferLineSize) :
    (U + 0) % BufferLineSize = U := by
  simp only [BufferLineSize] at *
  omega

/-- Behavior of the lower-index search walk: starting at the end of a live
span of `m` entries based at ring position `U`, with the entries from
position `p` on all dominated by `x` (`x ≥ value`) and the entry at
position `p - 1` not dominated, the walk stops at ring position
`U + (p - 1)`. -/
theorem findLowerLoop_spec {α : Type} [LinearOrder α] (values : ℕ → α)
    (x : α) :
    ∀ (d U m p : ℕ), U < BufferLineSize → m ≤ BufferLineSize - 1 →
    1 ≤ p → p ≤ m → m - p = d →
    (∀ t, p ≤ t → t < m → x ≥ values ((U + t) % BufferLineSize)) →
    (¬ x ≥ values ((U + (p - 1)) % BufferLineSize)) →
    ∀ fuel, d < fuel →
    findLowerLoop values x ((U + (m - 1)) % BufferLineSize) fuel
      = (U + (p - 1)) % BufferLineSize := by
  intro d
  induction d with
  | zero =>
    intro U m p hU hm hp1 hpm hd hge hstop fuel hfuel
    obtain ⟨fuel', rfl⟩ : ∃ f', fuel = f' + 1 := ⟨fuel - 1, by omega⟩
    have hmp : p = m := by omega
    subst hmp
    simp only [findLowerLoop, modN_idem]
    rw [if_neg hstop]
  | succ d ih =>
    intro U m p hU hm hp1 hpm hd hge hstop fuel hfuel
    obtain ⟨fuel', rfl⟩ : ∃ f', fuel = f' + 1 := ⟨fuel - 1, by omega⟩
    have hm2 : 2 ≤ m := by omega
    simp only [findLowerLoop, modN_idem]
    rw [if_pos (hge (m - 1) (by omega) (by omega))]
    have hstep : ((U + (m - 1)) % BufferLineSize + (BufferLineSize - 1))
        % BufferLineSize = (U + (m - 1 - 1)) % BufferLineSize :=
      modN_dec (by omega)
    rw [hstep]
    have h12 : m - 1 - 1 = m - 1 - 1 := rfl
    have hres := ih U (m - 1) p hU (by omega) hp1 (by omega) (by omega)
      (fun t htp htm => hge t htp (by omega)) hstop fuel' (by omega)
    exact hres

/-- On a strictly increasing index list with strictly decreasing values, the
undominated indices form a prefix: filtering equals `takeWhile`. -/
theorem filter_eq_takeWhile_of_anti {α : Type} [LinearOrder α]
    (inputs : ℕ → α) (x : α) :
    ∀ E : List ℕ, (∀ a ∈ E, ∀ b ∈ E, a < b → inputs b < inputs a) →
    E.Pairwise (· < ·) →
    E.filter (fun j => decide (x < inputs j))
      = E.takeWhile (fun j => decide (x < inputs j)) := by
  intro E
  induction E with
  | nil => intro _ _; rfl
  | cons j E' ih =>
    intro hanti hpw
    obtain ⟨hj1, hpw'⟩ := List.pairwise_cons.mp hpw
    by_cases hj : x < inputs j
    · rw [List.filter_cons, List.takeWhile_cons, decide_eq_true hj]
      exact congrArg (List.cons j)
        (ih (fun a ha b hb hab =>
          hanti a (List.mem_cons_of_mem _ ha) b (List.mem_cons_of_mem _ hb)
            hab) hpw')
    · rw [List.filter_cons, List.takeWhile_cons, decide_eq_false hj]
      refine List.filter_eq_nil_iff.mpr ?_
      intro a ha
      simp only [decide_eq_true_eq]
      have hja : inputs a < inputs j :=
        hanti j (List.mem_cons_self _ _) a (List.mem_cons_of_mem _ ha)
          (hj1 a ha)
      intro hxa
      exact hj (lt_trans hxa hja)

/-- Every index the walk may drop (the `dropWhile` suffix) is dominated. -/
theorem dropWhile_dominated {α : Type} [LinearOrder α] (inputs : ℕ → α)
    (x : α) :
    ∀ E : List ℕ, (∀ a ∈ E, ∀ b ∈ E, a < b → inputs b < inputs a) →
    E.Pairwise (· < ·) →
    ∀ b ∈ E.dropWhile (fun j => decide (x < inputs j)), ¬ x < inputs b := by
  intro E
  induction E with
  | nil => intro _ _ b hb; simp at hb
  | cons j E' ih =>
    intro hanti hpw b hb
    obtain ⟨hj1, hpw'⟩ := List.pairwise_cons.mp hpw
    by_cases hj : x < inputs j
    · rw [List.dropWhile_cons, decide_eq_true hj] at hb
      have hb2 : b ∈ List.dropWhile (fun k => decide (x < inputs k)) E' := hb
      exact ih (fun a ha b' hb' hab =>
        hanti a (List.mem_cons_of_mem _ ha) b' (List.mem_cons_of_mem _ hb')
          hab) hpw' b hb2
    · rw [List.dropWhile_cons, decide_eq_false hj] at hb
      have hb2 : b ∈ j :: E' := hb
      rcases List.mem_cons.mp hb2 with h | h
      · rw [h]; exact hj
      · have hjb : inputs b < inputs j :=
          hanti j (List.mem_cons_self _ _) b (List.mem_cons_of_mem _ h)
            (hj1 b h)
        intro hxb
        exact hj (lt_trans hxb hjb)

/-- `UpdateSlidingHold` with the eviction step resolved to `U'`. -/
theorem UpdateSlidingHold_eq {α : Type} [LinearOrder α] (h : SlidingHold α)
    (i : ℕ) (xin : α) (U' : ℕ)
    (hupper : (if i ≥ h.mExpiries h.mUpperIndex then
        (h.mUpperIndex + 1) % BufferLineSize else h.mUpperIndex) = U') :
    UpdateSlidingHold h i xin =
      if xin ≥ h.mValues U' then
        ({ mValues := updf h.mValues U' xin
           mExpiries := updf h.mExpiries U' (i + h.mLength)
           mLowerIndex := U'
           mUpperIndex := U'
           mLength := h.mLength }, updf h.mValues U' xin U')
      else
        ({ mValues := updf h.mValues
             ((findLowerLoop h.mValues xin h.mLowerIndex
               (2 * BufferLineSize + 1) + 1) % BufferLineSize) xin
           mExpiries := updf h.mExpiries
             ((findLowerLoop h.mValues xin h.mLowerIndex
               (2 * BufferLineSize + 1) + 1) % BufferLineSize) (i + h.mLength)
           mLowerIndex := (findLowerLoop h.mValues xin h.mLowerIndex
               (2 * BufferLineSize + 1) + 1) % BufferLineSize
           mUpperIndex := U'
           mLength := h.mLength },
         updf h.mValues
           ((findLowerLoop h.mValues xin h.mLowerIndex
             (2 * BufferLineSize + 1) + 1) % BufferLineSize) xin U') := by
  simp only [UpdateSlidingHold]
  rw [hupper]

theorem getD_append_lt {α : Type} (l1 l2 : List α) (d : α) (t : ℕ)
    (h : t < l1.length) : (l1 ++ l2).getD t d = l1.getD t d := by
  rw [List.getD_eq_getElem _ _ (by simp only [List.length_append]; omega),
    List.getD_eq_getElem _ _ h]
  exact List.getElem_append_left h

theorem getD_append_ge {α : Type} (l1 l2 : List α) (d : α) (t : ℕ)
    (h1 : l1.length ≤ t) (h2 : t < l1.length + l2.length) :
    (l1 ++ l2).getD t d = l2.getD (t - l1.length) d := by
  rw [List.getD_eq_getElem _ _ (by simp only [List.length_append]; omega),
    List.getD_eq_getElem _ _ (by omega)]
  exact List.getElem_append_right h1

/-- Core of the induction step: after the eviction phase, the live span
holds the unexpired records `E` at base `U'`; one `UpdateSlidingHold` call
then returns the window maximum and leaves the span holding the new
records. -/
theorem holdStepCore {α : Type} [LinearOrder α] (inputs : ℕ → α) (L i : ℕ)
    (hL2 : 2 ≤ L) (hLN : L ≤ BufferLineSize - 1)
    (h : SlidingHold α) (U' : ℕ) (E : List ℕ)
    (hupper : (if i + 1 ≥ h.mExpiries h.mUpperIndex then
        (h.mUpperIndex + 1) % BufferLineSize else h.mUpperIndex) = U')
    (hU'lt : U' < BufferLineSize)
    (hE1 : 1 ≤ E.length) (hEL : E.length ≤ L - 1)
    (hlowE : h.mLowerIndex = (U' + (E.length - 1)) % BufferLineSize)
    (hLen : h.mLength = L)
    (hvalE : ∀ t, t < E.length →
      h.mValues ((U' + t) % BufferLineSize) = inputs (E.getD t 0))
    (hexpE : ∀ t, t < E.length →
      h.mExpiries ((U' + t) % BufferLineSize) = E.getD t 0 + L)
    (hEfilter : (windowRecords inputs L i).filter
        (fun j => decide (i + 1 < j + L)) = E)
    (hEmem : ∀ j ∈ E, j ∈ windowRecords inputs L i)
    (hEpw : E.Pairwise (· < ·)) :
    (UpdateSlidingHold h (i + 1) (inputs (i + 1))).2
        = windowMax inputs L (i + 1) ∧
    ∃ U'', HoldRepr inputs L (UpdateSlidingHold h (i + 1) (inputs (i + 1))).1
      U'' (windowRecords inputs L (i + 1)) := by
  classical
  have hNval : BufferLineSize = 1024 := rfl
  -- records at `i + 1` in terms of the value filter over `E`
  have hrecs : windowRecords inputs L (i + 1)
      = (E.filter fun j => decide (inputs (i + 1) < inputs j)) ++ [i + 1] := by
    rw [windowRecords_succ inputs i (by omega)]
    congr 1
    rw [← hEfilter, List.filter_filter]
    apply List.filter_congr
    intro j hj
    apply Bool.eq_iff_iff.mpr
    simp only [Bool.and_eq_true, decide_eq_true_eq]
    constructor
    · rintro ⟨h1, h2⟩; exact ⟨h2, h1⟩
    · rintro ⟨h1, h2⟩; exact ⟨h2, h1⟩
  have hanti : ∀ a ∈ E, ∀ b ∈ E, a < b → inputs b < inputs a :=
    fun a ha b hb hab => windowRecords_anti (hEmem a ha) (hEmem b hb) hab
  obtain ⟨e0, Et, hE⟩ := List.exists_cons_of_ne_nil
    (show E ≠ [] from List.ne_nil_of_length_pos (by omega))
  have he0 : E.getD 0 0 = e0 := by rw [hE]; rfl
  have he0min : ∀ a ∈ E, e0 ≤ a := by
    intro a ha
    have hpw := hEpw
    rw [hE] at hpw ha
    rcases List.mem_cons.mp ha with hh | hh
    · omega
    · exact le_of_lt ((List.pairwise_cons.mp hpw).1 a hh)
  have hvalU' : h.mValues U' = inputs e0 := by
    have h0 := hvalE 0 (by omega)
    rw [modN_zero hU'lt, he0] at h0
    exact h0
  by_cases hbc : inputs (i + 1) ≥ h.mValues U'
  · -- instant-attack branch: the new input dominates the whole span
    rw [UpdateSlidingHold_eq h (i + 1) (inputs (i + 1)) U' hupper, if_pos hbc]
    rw [hvalU'] at hbc
    have hfe : E.filter (fun j => decide (inputs (i + 1) < inputs j)) = [] := by
      apply List.filter_eq_nil_iff.mpr
      intro a ha
      simp only [decide_eq_true_eq]
      have hae : inputs a ≤ inputs e0 := by
        rcases eq_or_lt_of_le (he0min a ha) with hh | hh
        · rw [← hh]
        · exact le_of_lt (hanti e0 (by rw [hE]; exact List.mem_cons_self _ _)
            a ha hh)
      exact not_lt.mpr (le_trans hae hbc)
    have hrecs1 : windowRecords inputs L (i + 1) = [i + 1] := by
      rw [hrecs, hfe, List.nil_append]
    have hwm : windowMax inputs L (i + 1) = inputs (i + 1) := by
      have hh := windowRecords_headI_eq_windowMax inputs (i + 1)
        (by omega : 1 ≤ L)
      rw [hrecs1] at hh
      exact hh.symm
    constructor
    · show updf h.mValues U' (inputs (i + 1)) U' = _
      rw [hwm, updf, if_pos rfl]
    · refine ⟨U', ?_⟩
      rw [hrecs1]
      refine ⟨rfl, hU'lt, by simp, by rw [hNval]; simp, ?_, hLen, ?_, ?_⟩
      · show U' = (U' + (1 - 1)) % BufferLineSize
        rw [Nat.sub_self, modN_zero hU'lt]
      · intro t ht
        have ht0 : t = 0 := by simpa using ht
        subst ht0
        rw [modN_zero hU'lt]
        show updf h.mValues U' (inputs (i + 1)) U' = _
        rw [updf, if_pos rfl]
        rfl
      · intro t ht
        have ht0 : t = 0 := by simpa using ht
        subst ht0
        rw [modN_zero hU'lt]
        show updf h.mExpiries U' (i + 1 + h.mLength) U' = _
        rw [updf, if_pos rfl, hLen]
        rfl
  · -- the walk drops the dominated suffix and inserts after the survivor
    rw [UpdateSlidingHold_eq h (i + 1) (inputs (i + 1)) U' hupper, if_neg hbc]
    rw [hvalU'] at hbc
    have hxe0 : inputs (i + 1) < inputs e0 := lt_of_not_ge hbc
    have hfilterA := filter_eq_takeWhile_of_anti inputs (inputs (i + 1)) E
      hanti hEpw
    have hBdom := dropWhile_dominated inputs (inputs (i + 1)) E hanti hEpw
    have hAB : E.takeWhile (fun j => decide (inputs (i + 1) < inputs j))
        ++ E.dropWhile (fun j => decide (inputs (i + 1) < inputs j)) = E :=
      List.takeWhile_append_dropWhile _ _
    -- the head survives, so the kept prefix is nonempty
    have hAcons : E.takeWhile (fun j => decide (inputs (i + 1) < inputs j))
        = e0 :: Et.takeWhile (fun j => decide (inputs (i + 1) < inputs j)) := by
      rw [hE, List.takeWhile_cons, decide_eq_true hxe0]
      rfl
    set A := E.takeWhile (fun j => decide (inputs (i + 1) < inputs j))
      with hAdef
    set B := E.dropWhile (fun j => decide (inputs (i + 1) < inputs j))
      with hBdef
    have hA1 : 1 ≤ A.length := by rw [hAcons]; simp
    have hAp : A.length ≤ E.length := by
      rw [← hAB]; simp
    have hAmem : ∀ a ∈ A, inputs (i + 1) < inputs a := by
      intro a ha
      have := List.mem_takeWhile_imp ha
      simpa using this
    have hlenE : A.length + B.length = E.length := by
      rw [← hAB]; simp
    -- the walk stops at the last undominated entry
    have hwalk : findLowerLoop h.mValues (inputs (i + 1)) h.mLowerIndex
        (2 * BufferLineSize + 1)
        = (U' + (A.length - 1)) % BufferLineSize := by
      rw [hlowE]
      apply findLowerLoop_spec h.mValues (inputs (i + 1))
        (E.length - A.length) U' E.length A.length hU'lt (by omega) hA1 hAp
        (by omega)
      · intro t htp htm
        rw [hvalE t htm]
        have htB : E.getD t 0 ∈ B := by
          have hget : E.getD t 0 = B.getD (t - A.length) 0 := by
            conv_lhs => rw [← hAB]
            exact getD_append_ge A B 0 t (by omega) (by omega)
          rw [hget]
          rw [List.getD_eq_getElem _ _ (by omega : t - A.length < B.length)]
          exact List.getElem_mem _
        have := hBdom _ htB
        exact not_lt.mp this
      · rw [hvalE (A.length - 1) (by omega)]
        have hgetA : E.getD (A.length - 1) 0 = A.getD (A.length - 1) 0 := by
          conv_lhs => rw [← hAB]
          exact getD_append_lt A B 0 _ (by omega)
        rw [hgetA]
        have hmemA : A.getD (A.length - 1) 0 ∈ A := by
          rw [List.getD_eq_getElem _ _ (by omega : A.length - 1 < A.length)]
          exact List.getElem_mem _
        exact not_le.mpr (hAmem _ hmemA)
      · omega
    have hlower : (findLowerLoop h.mValues (inputs (i + 1)) h.mLowerIndex
        (2 * BufferLineSize + 1) + 1) % BufferLineSize
        = (U' + A.length) % BufferLineSize := by
      rw [hwalk, modN_base]
      have harith : U' + (A.length - 1) + 1 = U' + A.length := by omega
      rw [harith]
    have hpltN : A.length < BufferLineSize := by
      have := bls_pos
      omega
    have hWne : ∀ t, t < A.length →
        (U' + t) % BufferLineSize ≠ (U' + A.length) % BufferLineSize := by
      intro t ht heq
      have := modN_inj (by omega) hpltN heq
      omega
    have hU'ne : U' ≠ (U' + A.length) % BufferLineSize := by
      intro heq
      have : (U' + 0) % BufferLineSize = (U' + A.length) % BufferLineSize := by
        rw [modN_zero hU'lt]; exact heq
      have := modN_inj (by omega) hpltN this
      omega
    have hrecs2 : windowRecords inputs L (i + 1) = A ++ [i + 1] := by
      rw [hrecs, hfilterA]
    have hwm : windowMax inputs L (i + 1) = inputs e0 := by
      have hh := windowRecords_headI_eq_windowMax inputs (i + 1)
        (by omega : 1 ≤ L)
      rw [hrecs2, hAcons] at hh
      exact hh.symm
    constructor
    · show updf h.mValues _ (inputs (i + 1)) U' = _
      rw [hlower, updf, if_neg hU'ne, hvalU', hwm]
    · refine ⟨U', ?_⟩
      rw [hrecs2]
      have hlenD' : (A ++ [i + 1]).length = A.length + 1 := by simp
      refine ⟨rfl, hU'lt, ?_, ?_, ?_, hLen, ?_, ?_⟩
      · rw [hlenD']; omega
      · rw [hlenD']; omega
      · show (findLowerLoop _ _ _ _ + 1) % BufferLineSize = _
        rw [hlower, hlenD']
        simp
      · intro t ht
        rw [hlenD'] at ht
        show updf h.mValues ((findLowerLoop _ _ _ _ + 1) % BufferLineSize)
          (inputs (i + 1)) ((U' + t) % BufferLineSize) = _
        rw [hlower, updf]
        rcases Nat.lt_or_ge t A.length with htA | htA
        · rw [if_neg (hWne t htA)]
          rw [hvalE t (by omega)]
          rw [getD_append_lt A [i + 1] 0 t htA]
          have hEA : E.getD t 0 = A.getD t 0 := by
            conv_lhs => rw [← hAB]
            exact getD_append_lt A B 0 t htA
          rw [hEA]
        · have htA' : t = A.length := by omega
          subst htA'
          rw [if_pos rfl]
          rw [getD_append_ge A [i + 1] 0 A.length le_rfl (by simp)]
          rw [Nat.sub_self]
          rfl
      · intro t ht
        rw [hlenD'] at ht
        show updf h.mExpiries ((findLowerLoop _ _ _ _ + 1) % BufferLineSize)
          (i + 1 + h.mLength) ((U' + t) % BufferLineSize) = _
        rw [hlower, updf]
        rcases Nat.lt_or_ge t A.length with htA | htA
        · rw [if_neg (hWne t htA)]
          rw [hexpE t (by omega)]
          rw [getD_append_lt A [i + 1] 0 t htA]
          have hEA : E.getD t 0 = A.getD t 0 := by
            conv_lhs => rw [← hAB]
            exact getD_append_lt A B 0 t htA
          rw [hEA]
        · have htA' : t = A.length := by omega
          subst htA'
          rw [if_pos rfl, hLen]
          rw [getD_append_ge A [i + 1] 0 A.length le_rfl (by simp)]
          rw [Nat.sub_self]
          rfl

/-- Full induction step: the eviction phase removes exactly the (at most
one) expired head record, after which `holdStepCore` applies. -/
theorem holdStep {α : Type} [LinearOrder α] (inputs : ℕ → α) (L i : ℕ)
    (hL2 : 2 ≤ L) (hLN : L ≤ BufferLineSize - 1)
    (h : SlidingHold α) (U : ℕ)
    (rep : HoldRepr inputs L h U (windowRecords inputs L i)) :
    (UpdateSlidingHold h (i + 1) (inputs (i + 1))).2
        = windowMax inputs L (i + 1) ∧
    ∃ U', HoldRepr inputs L (UpdateSlidingHold h (i + 1) (inputs (i + 1))).1
      U' (windowRecords inputs L (i + 1)) := by
  classical
  obtain ⟨hU, hUlt, hlen1, hlenN, hlow, hLen, hval, hexp⟩ := rep
  obtain ⟨j0, Dt, hD⟩ := List.exists_cons_of_ne_nil
    (windowRecords_ne_nil inputs i (by omega : 1 ≤ L))
  have hpwD := windowRecords_pairwise inputs L i
  have hpwDt := hD ▸ hpwD
  have hj0D : j0 ∈ windowRecords inputs L i := by
    rw [hD]; exact List.mem_cons_self _ _
  obtain ⟨hj0i, hj0L, -⟩ := mem_windowRecords.mp hj0D
  have hj0lt : ∀ j ∈ Dt, j0 < j := (List.pairwise_cons.mp hpwDt).1
  have hj0min : ∀ j ∈ windowRecords inputs L i, j0 ≤ j := by
    intro j hj
    rw [hD] at hj
    rcases List.mem_cons.mp hj with hh | hh
    · omega
    · exact le_of_lt (hj0lt j hh)
  have hexpU : h.mExpiries U = j0 + L := by
    have h0 := hexp 0 (by omega)
    rw [modN_zero hUlt, hD] at h0
    simpa using h0
  have hmemDt : ∀ j ∈ Dt, i + 1 < j + L := by
    intro j hj
    have hjD : j ∈ windowRecords inputs L i := by
      rw [hD]; exact List.mem_cons_of_mem _ hj
    obtain ⟨hji, hjL, -⟩ := mem_windowRecords.mp hjD
    have := hj0lt j hj
    omega
  have hDlen : (windowRecords inputs L i).length = Dt.length + 1 := by
    rw [hD]; simp
  by_cases hev : i + 1 ≥ j0 + L
  · -- the head record expired: the upper index advances past it
    have hDtne : Dt ≠ [] := by
      intro hnil
      have hiD := self_mem_windowRecords inputs i (by omega : 1 ≤ L)
      rw [hD, hnil] at hiD
      have : i = j0 := by simpa using hiD
      omega
    have hupper : (if i + 1 ≥ h.mExpiries h.mUpperIndex then
        (h.mUpperIndex + 1) % BufferLineSize else h.mUpperIndex)
        = (U + 1) % BufferLineSize := by
      rw [hU, hexpU, if_pos hev]
    have hDt1 : 1 ≤ Dt.length := by
      rcases Dt with - | ⟨a, l⟩
      · exact absurd rfl hDtne
      · simp
    refine holdStepCore inputs L i hL2 hLN h ((U + 1) % BufferLineSize) Dt
      hupper (modN_lt _) hDt1 ?_ ?_ hLen ?_ ?_ ?_ ?_
      (List.pairwise_cons.mp hpwDt).2
    · have := windowRecords_length_le inputs L i
      omega
    · rw [hlow, hDlen, modN_base]
      congr 1
      omega
    · intro t ht
      have hv := hval (t + 1) (by omega)
      rw [hD] at hv
      rw [modN_base]
      have harith : (U + 1) % BufferLineSize + t = (U + 1) % BufferLineSize + t := rfl
      have harith2 : U + 1 + t = U + (t + 1) := by omega
      rw [harith2]
      simpa using hv
    · intro t ht
      have hv := hexp (t + 1) (by omega)
      rw [hD] at hv
      rw [modN_base]
      have harith2 : U + 1 + t = U + (t + 1) := by omega
      rw [harith2]
      simpa using hv
    · rw [hD, List.filter_cons, decide_eq_false (by omega : ¬ i + 1 < j0 + L)]
      exact List.filter_eq_self.mpr
        (fun a ha => decide_eq_true (hmemDt a ha))
    · intro j hj
      rw [hD]
      exact List.mem_cons_of_mem _ hj
  · -- no record expired
    have hupper : (if i + 1 ≥ h.mExpiries h.mUpperIndex then
        (h.mUpperIndex + 1) % BufferLineSize else h.mUpperIndex) = U := by
      rw [hU, hexpU, if_neg hev]
    refine holdStepCore inputs L i hL2 hLN h U (windowRecords inputs L i)
      hupper hUlt hlen1 ?_ hlow hLen hval hexp ?_ (fun j hj => hj) hpwD
    · have hall := pairwise_lt_length_le (windowRecords inputs L i) hpwD j0 i
        (fun x hx => ⟨hj0min x hx, (mem_windowRecords.mp hx).1⟩)
      omega
    · apply List.filter_eq_self.mpr
      intro a ha
      apply decide_eq_true
      have h1 := hj0min a ha
      omega

theorem windowRecords_zero {α : Type} [LinearOrder α] (inputs : ℕ → α)
    {L : ℕ} (hL : 1 ≤ L) : windowRecords inputs L 0 = [0] := by
  unfold windowRecords
  show List.filter _ [0] = [0]
  rw [List.filter_cons,
    decide_eq_true (show 0 < 0 + L ∧ ∀ k, k ≤ 0 → 0 < k → inputs k < inputs 0
      from ⟨by omega, fun k hk hk0 => by omega⟩)]
  rfl

/-- **C3.** For every hold length `L` as `Compressor::Create` admits
(`2 ≤ L ≤ BufferLineSize - 1`), with the `SlidingHold` initialized as
`Create` initializes it, and every input sequence fed to
`UpdateSlidingHold` at sample indices `0, 1, 2, ...`, the value returned at
step `i` equals the maximum of the inputs at indices `max(0, i - L + 1)`
through `i` (the brute-force sliding-window-maximum oracle), for all `i`. -/
theorem c3_sliding_hold_equals_window_max {α : Type} [LinearOrder α]
    [OrderBot α] (z : α) (inputs : ℕ → α) (L : ℕ) (hL2 : 2 ≤ L)
    (hLN : L ≤ BufferLineSize - 1) :
    ∀ i, holdOutput inputs (initHold L z) i = windowMax inputs L i := by
  classical
  have main : ∀ i,
      (UpdateSlidingHold (runHold inputs (initHold L z) i) i (inputs i)).2
        = windowMax inputs L i ∧
      ∃ U, HoldRepr inputs L (runHold inputs (initHold L z) (i + 1)) U
        (windowRecords inputs L i) := by
    intro i
    induction i with
    | zero =>
      have hUe : (initHold L z : SlidingHold α).mUpperIndex = 0 := rfl
      have hEx : (initHold L z : SlidingHold α).mExpiries 0 = L := by
        show updf (fun _ => 0) 0 L 0 = L
        rw [updf, if_pos rfl]
      have hVal : (initHold L z : SlidingHold α).mValues 0 = ⊥ := by
        show updf (fun _ => z) 0 ⊥ 0 = ⊥
        rw [updf, if_pos rfl]
      have hupper : (if 0 ≥ (initHold L z : SlidingHold α).mExpiries
          (initHold L z : SlidingHold α).mUpperIndex then
          ((initHold L z : SlidingHold α).mUpperIndex + 1) % BufferLineSize
          else (initHold L z : SlidingHold α).mUpperIndex) = 0 := by
        rw [hUe, hEx, if_neg (by omega : ¬ 0 ≥ L)]
      have hbc : inputs 0 ≥ (initHold L z : SlidingHold α).mValues 0 := by
        rw [hVal]
        exact bot_le
      have hstep := UpdateSlidingHold_eq (initHold L z) 0 (inputs 0) 0 hupper
      rw [if_pos hbc] at hstep
      have hwm0 : windowMax inputs L 0 = inputs 0 := by
        unfold windowMax
        apply le_antisymm
        · apply Finset.sup'_le
          intro b hb
          have hb' := Finset.mem_Icc.mp hb
          have hb0 : b = 0 := by omega
          rw [hb0]
        · exact Finset.le_sup' inputs (by rw [Finset.mem_Icc]; omega)
      constructor
      · show (UpdateSlidingHold (initHold L z) 0 (inputs 0)).2 = _
        rw [hstep, hwm0]
        show updf (initHold L z : SlidingHold α).mValues 0 (inputs 0) 0
          = inputs 0
        rw [updf, if_pos rfl]
      · refine ⟨0, ?_⟩
        rw [windowRecords_zero inputs (by omega : 1 ≤ L)]
        show HoldRepr inputs L (UpdateSlidingHold (initHold L z) 0
          (inputs 0)).1 0 [0]
        rw [hstep]
        refine ⟨rfl, bls_pos, by simp, ?_, ?_, rfl, ?_, ?_⟩
        · show 1 ≤ BufferLineSize - 1
          have : BufferLineSize = 1024 := rfl
          omega
        · show (0 : ℕ) = (0 + (1 - 1)) % BufferLineSize
          rw [Nat.sub_self, Nat.add_zero, Nat.zero_mod]
        · intro t ht
          have ht0 : t = 0 := by simpa using ht
          subst ht0
          show updf (initHold L z : SlidingHold α).mValues 0 (inputs 0)
            ((0 + 0) % BufferLineSize) = _
          rw [Nat.add_zero, Nat.zero_mod, updf, if_pos rfl]
          rfl
        · intro t ht
          have ht0 : t = 0 := by simpa using ht
          subst ht0
          show updf (initHold L z : SlidingHold α).mExpiries 0
            (0 + (initHold L z : SlidingHold α).mLength)
            ((0 + 0) % BufferLineSize) = _
          rw [Nat.add_zero, Nat.zero_mod, updf, if_pos rfl]
          show 0 + (initHold L z : SlidingHold α).mLength = 0 + L
          rfl
    | succ n ih =>
      obtain ⟨-, U, rep⟩ := ih
      have hstep := holdStep inputs L n hL2 hLN _ U rep
      exact ⟨hstep.1, hstep.2⟩
  intro i
  exact (main i).1

/-- Witness for C3 at `L = 2`, constant inputs, step `i = 1`. -/
theorem c3_sliding_hold_equals_window_max_witness :
    ((2 : ℕ) ≤ 2 ∧ (2 : ℕ) ≤ BufferLineSize - 1) ∧
    holdOutput (fun _ => (0 : WithBot ℚ)) (initHold 2 ((0 : ℚ) : WithBot ℚ)) 1
      = windowMax (fun _ => (0 : WithBot ℚ)) 2 1 :=
  ⟨⟨le_rfl, by norm_num [BufferLineSize]⟩,
    c3_sliding_hold_equals_window_max ((0 : ℚ) : WithBot ℚ)
      (fun _ => (0 : WithBot ℚ)) 2 le_rfl (by norm_num [BufferLineSize]) 1⟩

/-! ### Silence in, silence out (C7) -/

theorem mem_zipWith_imp {α β γ : Type} (f : α → β → γ) :
    ∀ (as : List α) (bs : List β) (c : γ), c ∈ List.zipWith f as bs →
      ∃ a b, a ∈ as ∧ b ∈ bs ∧ c = f a b := by
  intro as
  induction as with
  | nil => intro bs c hc; simp at hc
  | cons a as' ih =>
    intro bs c hc
    rcases bs with - | ⟨b, bs'⟩
    · simp at hc
    · rw [List.zipWith_cons_cons] at hc
      rcases List.mem_cons.mp hc with h | h
      · exact ⟨a, b, List.mem_cons_self _ _, List.mem_cons_self _ _, h⟩
      · obtain ⟨a', b', ha', hb', hc'⟩ := ih bs' c h
        exact ⟨a', b', List.mem_cons_of_mem _ ha',
          List.mem_cons_of_mem _ hb', hc'⟩

theorem zipWith_mul_zero (gains ch : List ℝ) (h : ∀ x ∈ ch, x = 0) :
    ∀ v ∈ List.zipWith (fun g x => g * x) gains ch, v = 0 := by
  intro v hv
  obtain ⟨g, x, -, hx, rfl⟩ := mem_zipWith_imp _ gains ch v hv
  rw [h x hx, mul_zero]

/-- Zeros in, zeros out, for one channel of the delay stage. -/
theorem signalDelayChan_zero (n K : ℕ) (inout delaybuf : List ℝ)
    (h1 : ∀ v ∈ inout, v = 0) (h2 : ∀ v ∈ delaybuf, v = 0) :
    (∀ v ∈ (signalDelayChan n K inout delaybuf).1, v = 0) ∧
    (∀ v ∈ (signalDelayChan n K inout delaybuf).2, v = 0) := by
  have hrot : ∀ (l : List ℝ) (m : ℕ), (∀ v ∈ l, v = 0) →
      ∀ v ∈ rotateAt l m, v = 0 := by
    intro l m hl v hv
    rcases List.mem_append.mp hv with h | h
    · exact hl v (List.mem_of_mem_drop h)
    · exact hl v (List.mem_of_mem_take h)
  rw [signalDelayChan]
  by_cases hKn : K ≤ n
  · rw [if_pos hKn]
    constructor
    · intro v hv
      rcases List.mem_append.mp hv with h | h
      · exact h2 v (List.mem_of_mem_take h)
      · exact hrot inout (n - K) h1 v (List.mem_of_mem_drop h)
    · intro v hv
      rcases List.mem_append.mp hv with h | h
      · exact hrot inout (n - K) h1 v (List.mem_of_mem_take h)
      · exact h2 v (List.mem_of_mem_drop h)
  · rw [if_neg hKn]
    constructor
    · intro v hv
      exact h2 v (List.mem_of_mem_take hv)
    · intro v hv
      refine hrot _ n ?_ v hv
      intro w hw
      rcases List.mem_append.mp hw with h | h
      · exact h1 w h
      · exact h2 w (List.mem_of_mem_drop h)

theorem peakHoldDetector_mDelay (c : Compressor) (n : ℕ) :
    (Compressor.peakHoldDetector c n).mDelay = c.mDelay := by
  rcases h : c.mHold with - | hh <;> simp [Compressor.peakHoldDetector, h]

theorem linkChannels_mDelay (c : Compressor) (n : ℕ) (b : List (List ℝ)) :
    (Compressor.linkChannels c n b).mDelay = c.mDelay := rfl

theorem gainCompressor_mDelay (c : Compressor) (n : ℕ) :
    (Compressor.gainCompressor c n).mDelay = c.mDelay := rfl

theorem crestIf_mDelay (c1 : Compressor) (n : ℕ) :
    (if (c1.mAuto.Attack || c1.mAuto.Release) = true then
      Compressor.crestDetector c1 n else c1).mDelay = c1.mDelay := by
  by_cases h : (c1.mAuto.Attack || c1.mAuto.Release) = true
  · rw [if_pos h]; rfl
  · rw [if_neg h]

theorem peakIf_mDelay (c2 : Compressor) (n : ℕ) :
    (if c2.mHold.isSome = true then Compressor.peakHoldDetector c2 n
      else Compressor.peakDetector c2 n).mDelay = c2.mDelay := by
  by_cases h : c2.mHold.isSome = true
  · rw [if_pos h]
    exact peakHoldDetector_mDelay c2 n
  · rw [if_neg h]; rfl

/-- One silent call: all-zero input with all-zero delay lines produces
all-zero output and leaves the delay lines all-zero. -/
theorem process_zero (c : Compressor) (n : ℕ) (blk : List (List ℝ))
    (hdz : ∀ d ∈ c.mDelay, ∀ v ∈ d, v = 0)
    (hbz : ∀ ch ∈ blk, ∀ v ∈ ch, v = 0) :
    (∀ ch ∈ (Compressor.process c n blk).2, ∀ v ∈ ch, v = 0) ∧
    (∀ d ∈ (Compressor.process c n blk).1.mDelay, ∀ v ∈ d, v = 0) := by
  have hbuf : ∀ ch ∈ (if c.mPreGain = 1 then blk
      else blk.map fun ch => ch.map fun x => x * c.mPreGain),
      ∀ v ∈ ch, v = 0 := by
    by_cases hpg : c.mPreGain = 1
    · rw [if_pos hpg]; exact hbz
    · rw [if_neg hpg]
      intro ch hch v hv
      obtain ⟨ch0, hch0, rfl⟩ := List.mem_map.mp hch
      obtain ⟨x, hx, rfl⟩ := List.mem_map.mp hv
      rw [hbz ch0 hch0 x hx, zero_mul]
  simp only [Compressor.process]
  rw [gainCompressor_mDelay, peakIf_mDelay, crestIf_mDelay,
    linkChannels_mDelay]
  by_cases hemp : c.mDelay.isEmpty = true
  · rw [if_pos hemp]
    constructor
    · intro ch hch v hv
      obtain ⟨bch, hbch, rfl⟩ := List.mem_map.mp hch
      exact zipWith_mul_zero _ _ (hbuf bch hbch) v hv
    · intro d hd v hv
      simp only [] at hd
      rw [gainCompressor_mDelay, peakIf_mDelay, crestIf_mDelay,
        linkChannels_mDelay] at hd
      exact hdz d hd v hv
  · rw [if_neg hemp]
    constructor
    · intro ch hch v hv
      obtain ⟨bch, hbch, rfl⟩ := List.mem_map.mp hch
      refine zipWith_mul_zero _ _ ?_ v hv
      simp only [Compressor.signalDelay] at hbch
      obtain ⟨pr, hpr, rfl⟩ := List.mem_map.mp hbch
      obtain ⟨ch0, dl0, hch0, hdl0, rfl⟩ := mem_zipWith_imp _ _ _ pr hpr
      rw [gainCompressor_mDelay, peakIf_mDelay, crestIf_mDelay,
        linkChannels_mDelay] at hdl0
      exact (signalDelayChan_zero n _ ch0 dl0 (hbuf ch0 hch0)
        (hdz dl0 hdl0)).1
    · intro d hd v hv
      simp only [Compressor.signalDelay] at hd
      obtain ⟨pr, hpr, rfl⟩ := List.mem_map.mp hd
      obtain ⟨ch0, dl0, hch0, hdl0, rfl⟩ := mem_zipWith_imp _ _ _ pr hpr
      rw [gainCompressor_mDelay, peakIf_mDelay, crestIf_mDelay,
        linkChannels_mDelay] at hdl0
      exact (signalDelayChan_zero n _ ch0 dl0 (hbuf ch0 hch0)
        (hdz dl0 hdl0)).2 v hv

/-- **C7.** For every configuration, feeding a freshly created compressor
any sequence of all-zero input blocks produces output that is exactly zero
in every channel at every sample of every `process` call (every position of
every output block reads zero), across arbitrarily many calls. -/
theorem c7_silence_yields_silence (NumChans : ℕ) (SampleRate : ℝ)
    (autoflags : AutoFlags)
    (LookAheadTime HoldTime PreGainDb PostGainDb ThresholdDb Ratio KneeDb
      AttackTime ReleaseTime : ℝ)
    (blocks : List (ℕ × List (List ℝ)))
    (hz : ∀ p ∈ blocks, ∀ ch ∈ p.2, ∀ v ∈ ch, v = 0) :
    ∀ k ch t,
      (((Compressor.runProcess
          (Compressor.Create NumChans SampleRate autoflags LookAheadTime
            HoldTime PreGainDb PostGainDb ThresholdDb Ratio KneeDb
            AttackTime ReleaseTime) blocks).2.getD k []).getD ch []).getD t 0
        = 0 := by
  have main : ∀ (bs : List (ℕ × List (List ℝ))) (c : Compressor),
      (∀ d ∈ c.mDelay, ∀ v ∈ d, v = 0) →
      (∀ p ∈ bs, ∀ ch ∈ p.2, ∀ v ∈ ch, v = 0) →
      ∀ out ∈ (Compressor.runProcess c bs).2, ∀ ch ∈ out, ∀ v ∈ ch, v = 0 := by
    intro bs
    induction bs with
    | nil =>
      intro c hd hz0 out hout
      simp [Compressor.runProcess] at hout
    | cons p rest ih =>
      intro c hd hz0 out hout
      obtain ⟨n, blk⟩ := p
      have hstep := process_zero c n blk hd
        (hz0 (n, blk) (List.mem_cons_self _ _))
      simp only [Compressor.runProcess] at hout
      rcases List.mem_cons.mp hout with h | h
      · intro ch hch v hv
        rw [h] at hch
        exact hstep.1 ch hch v hv
      · exact ih (Compressor.process c n blk).1 hstep.2
          (fun q hq => hz0 q (List.mem_cons_of_mem _ hq)) out h
  have hinit : ∀ d ∈ (Compressor.Create NumChans SampleRate autoflags
      LookAheadTime HoldTime PreGainDb PostGainDb ThresholdDb Ratio KneeDb
      AttackTime ReleaseTime).mDelay, ∀ v ∈ d, v = 0 := by
    intro d hd v hv
    simp only [Compressor.Create] at hd
    split at hd
    · have := List.eq_of_mem_replicate hd
      rw [this] at hv
      exact List.eq_of_mem_replicate hv
    · simp at hd
  have hall := main blocks _ hinit hz
  have hlev1 : ∀ (l : List ℝ), (∀ v ∈ l, v = 0) → ∀ t, l.getD t 0 = 0 := by
    intro l hl t
    by_cases ht : t < l.length
    · rw [List.getD_eq_getElem _ _ ht]
      exact hl _ (List.getElem_mem _)
    · exact List.getD_eq_default _ _ (by omega)
  have hlev2 : ∀ (ll : List (List ℝ)), (∀ ch ∈ ll, ∀ v ∈ ch, v = 0) →
      ∀ c t, (ll.getD c []).getD t 0 = 0 := by
    intro ll hll c t
    by_cases hc : c < ll.length
    · rw [List.getD_eq_getElem _ _ hc]
      exact hlev1 _ (hll _ (List.getElem_mem _)) t
    · have hd : ll.getD c [] = [] := List.getD_eq_default _ _ (by omega)
      rw [hd]
      simp
  have hlev3 : ∀ (lll : List (List (List ℝ))),
      (∀ out ∈ lll, ∀ ch ∈ out, ∀ v ∈ ch, v = 0) →
      ∀ k c t, ((lll.getD k []).getD c []).getD t 0 = 0 := by
    intro lll hlll k c t
    by_cases hk : k < lll.length
    · rw [List.getD_eq_getElem _ _ hk]
      exact hlev2 _ (hlll _ (List.getElem_mem _)) c t
    · have hd : lll.getD k [] = [] := List.getD_eq_default _ _ (by omega)
      rw [hd]
      simp
  intro k ch t
  exact hlev3 _ hall k ch t

/-- Witness for C7: one all-zero one-sample block through a default
configuration. -/
theorem c7_silence_yields_silence_witness :
    (∀ p ∈ [((1 : ℕ), [[(0 : ℝ)]])], ∀ ch ∈ p.2, ∀ v ∈ ch, v = 0) ∧
    (((Compressor.runProcess
        (Compressor.Create 1 1 ⟨false, false, false, false, false⟩
          0 0 0 0 0 1 0 1 1) [(1, [[0]])]).2.getD 0 []).getD 0 []).getD 0 0
      = 0 :=
  ⟨by intro p hp ch hch v hv; simp at hp; rw [hp] at hch; simp at hch;
      rw [hch] at hv; simpa using hv,
   c7_silence_yields_silence 1 1 ⟨false, false, false, false, false⟩
     0 0 0 0 0 1 0 1 1 [(1, [[0]])]
     (by intro p hp ch hch v hv; simp at hp; rw [hp] at hch; simp at hch;
         rw [hch] at hv; simpa using hv) 0 0 0⟩

/-! ### Monotonicity in ratio (C8) -/

theorem crest_skip (c1 : Compressor) (n : ℕ) (h1 : c1.mAuto.Attack = false)
    (h2 : c1.mAuto.Release = false) :
    (if (c1.mAuto.Attack || c1.mAuto.Release) = true then
      Compressor.crestDetector c1 n else c1) = c1 := by
  rw [h1, h2]
  simp

/-- `process` with all automation flags clear: the crest stage is skipped. -/
theorem process_noAuto (d : Compressor)
    (hA : d.mAuto = ⟨false, false, false, false, false⟩) (n : ℕ)
    (blk : List (List ℝ)) :
    Compressor.process d n blk =
      (let buf := if d.mPreGain = 1 then blk
        else blk.map fun ch => ch.map fun x => x * d.mPreGain
       let c1 := Compressor.linkChannels d n buf
       let c3 := if c1.mHold.isSome = true then
           Compressor.peakHoldDetector c1 n
         else Compressor.peakDetector c1 n
       let c4 := Compressor.gainCompressor c3 n
       let dres := if c4.mDelay.isEmpty = true then (c4, buf)
         else Compressor.signalDelay c4 n buf
       let gains := (List.range n).map dres.1.mSideChain
       let out := dres.2.map fun ch => List.zipWith (fun g x => g * x) gains ch
       ({ dres.1 with
          mSideChain := fun j =>
            if j < dres.1.mLookAhead then dres.1.mSideChain (n + j)
            else dres.1.mSideChain j }, out)) := by
  have hAa : (Compressor.linkChannels d n (if d.mPreGain = 1 then blk
      else blk.map fun ch => ch.map fun x => x * d.mPreGain)).mAuto.Attack
      = false := by
    show d.mAuto.Attack = false
    rw [hA]
  have hAr : (Compressor.linkChannels d n (if d.mPreGain = 1 then blk
      else blk.map fun ch => ch.map fun x => x * d.mPreGain)).mAuto.Release
      = false := by
    show d.mAuto.Release = false
    rw [hA]
  simp only [Compressor.process]
  rw [crest_skip _ n hAa hAr]

/-- Linear interpolation is monotone in both endpoints for `mu ∈ [0,1]`. -/
theorem lerpf_mono (a₁ a₂ b₁ b₂ t : ℝ) (ha : a₁ ≤ a₂) (hb : b₁ ≤ b₂)
    (ht0 : 0 ≤ t) (ht1 : t ≤ 1) : lerpf a₁ b₁ t ≤ lerpf a₂ b₂ t := by
  simp only [lerpf]
  nlinarith

/-- The static curve is a nonnegative gain reduction for nonnegative knee. -/
theorem staticCurve_nonneg (knee x : ℝ) (hk : 0 ≤ knee) :
    0 ≤ Compressor.staticCurve knee x := by
  simp only [Compressor.staticCurve]
  split_ifs with h1 h2
  · exact le_refl 0
  · exact div_nonneg (mul_self_nonneg _) (by linarith)
  · push_neg at h1 h2
    rcases abs_cases x with ⟨_, hx⟩ | ⟨hax, hx⟩
    · linarith
    · rw [hax] at h2
      linarith

/-- With every automation flag clear, `gainSample` passes the smoothing
coefficients and the post-gain through unchanged. -/
theorem gainSample_noAuto_fields (c : Compressor)
    (hA : c.mAuto = ⟨false, false, false, false, false⟩) (s cr : ℕ → ℝ)
    (t : ℕ) (g : Compressor.GainState) :
    (Compressor.gainSample c s cr t g).1.knee = g.knee ∧
    (Compressor.gainSample c s cr t g).1.a_att = g.a_att ∧
    (Compressor.gainSample c s cr t g).1.a_rel = g.a_rel ∧
    (Compressor.gainSample c s cr t g).1.postGain = g.postGain := by
  simp [Compressor.gainSample, hA]

/-- One `gainSample` step preserves the ratio-monotonicity relation between
two automation-free compressors that differ only in slope. -/
theorem gainSample_mono (ca cb : Compressor)
    (hAa : ca.mAuto = ⟨false, false, false, false, false⟩)
    (hAb : cb.mAuto = ⟨false, false, false, false, false⟩)
    (hthr : cb.mThreshold = ca.mThreshold)
    (hslope : cb.mSlope ≤ ca.mSlope) (hslope0 : ca.mSlope ≤ 0)
    (sa sb cra crb : ℕ → ℝ) (t : ℕ)
    (hs : sb (cb.mLookAhead + t) = sa (ca.mLookAhead + t))
    (g₁ g₂ : Compressor.GainState)
    (hknee : g₂.knee = g₁.knee) (hknee0 : 0 ≤ g₁.knee)
    (hatt : g₂.a_att = g₁.a_att) (hatt0 : 0 ≤ g₁.a_att) (hatt1 : g₁.a_att ≤ 1)
    (hrel : g₂.a_rel = g₁.a_rel) (hrel0 : 0 ≤ g₁.a_rel) (hrel1 : g₁.a_rel ≤ 1)
    (hpg : g₂.postGain = g₁.postGain)
    (hy1 : g₁.y_1 ≤ g₂.y_1) (hyL : g₁.y_L ≤ g₂.y_L) :
    (Compressor.gainSample ca sa cra t g₁).1.y_1 ≤
      (Compressor.gainSample cb sb crb t g₂).1.y_1 ∧
    (Compressor.gainSample ca sa cra t g₁).1.y_L ≤
      (Compressor.gainSample cb sb crb t g₂).1.y_L ∧
    0 < (Compressor.gainSample cb sb crb t g₂).2 ∧
    (Compressor.gainSample cb sb crb t g₂).2 ≤
      (Compressor.gainSample ca sa cra t g₁).2 := by
  have hY : 0 ≤ Compressor.staticCurve g₁.knee
      (sa (ca.mLookAhead + t) - ca.mThreshold) := staticCurve_nonneg _ _ hknee0
  have hxL : -ca.mSlope * Compressor.staticCurve g₁.knee
        (sa (ca.mLookAhead + t) - ca.mThreshold) ≤
      -cb.mSlope * Compressor.staticCurve g₁.knee
        (sa (ca.mLookAhead + t) - ca.mThreshold) :=
    mul_le_mul_of_nonneg_right (by linarith) hY
  have hy1' : max (-ca.mSlope * Compressor.staticCurve g₁.knee
        (sa (ca.mLookAhead + t) - ca.mThreshold))
      (lerpf (-ca.mSlope * Compressor.staticCurve g₁.knee
        (sa (ca.mLookAhead + t) - ca.mThreshold)) g₁.y_1 g₁.a_rel) ≤
      max (-cb.mSlope * Compressor.staticCurve g₁.knee
        (sa (ca.mLookAhead + t) - ca.mThreshold))
      (lerpf (-cb.mSlope * Compressor.staticCurve g₁.knee
        (sa (ca.mLookAhead + t) - ca.mThreshold)) g₂.y_1 g₁.a_rel) :=
    max_le_max hxL (lerpf_mono _ _ _ _ _ hxL hy1 hrel0 hrel1)
  have hyL' : lerpf (max (-ca.mSlope * Compressor.staticCurve g₁.knee
        (sa (ca.mLookAhead + t) - ca.mThreshold))
      (lerpf (-ca.mSlope * Compressor.staticCurve g₁.knee
        (sa (ca.mLookAhead + t) - ca.mThreshold)) g₁.y_1 g₁.a_rel))
      g₁.y_L g₁.a_att ≤
      lerpf (max (-cb.mSlope * Compressor.staticCurve g₁.knee
        (sa (ca.mLookAhead + t) - ca.mThreshold))
      (lerpf (-cb.mSlope * Compressor.staticCurve g₁.knee
        (sa (ca.mLookAhead + t) - ca.mThreshold)) g₂.y_1 g₁.a_rel))
      g₂.y_L g₁.a_att :=
    lerpf_mono _ _ _ _ _ hy1' hyL hatt0 hatt1
  simp only [Compressor.gainSample, hAa, hAb, hknee, hthr, hs, hatt, hrel, hpg]
  simp only [Bool.false_and, Bool.false_eq_true, if_false]
  refine ⟨hy1', hyL', Real.exp_pos _, Real.exp_le_exp.mpr (by linarith)⟩

/-- The whole `gainCompressor` transform preserves the ratio-monotonicity
relation: the final smoothing state with the steeper slope dominates, and
every gain written back is positive and at most the shallower-slope gain. -/
theorem gainFold_mono (ca cb : Compressor)
    (hAa : ca.mAuto = ⟨false, false, false, false, false⟩)
    (hAb : cb.mAuto = ⟨false, false, false, false, false⟩)
    (hthr : cb.mThreshold = ca.mThreshold)
    (hslope : cb.mSlope ≤ ca.mSlope) (hslope0 : ca.mSlope ≤ 0)
    (sa sb cra crb : ℕ → ℝ) :
    ∀ (ts : List ℕ),
    (∀ t ∈ ts, sb (cb.mLookAhead + t) = sa (ca.mLookAhead + t)) →
    ∀ (g₁ g₂ : Compressor.GainState),
    g₂.knee = g₁.knee → 0 ≤ g₁.knee →
    g₂.a_att = g₁.a_att → 0 ≤ g₁.a_att → g₁.a_att ≤ 1 →
    g₂.a_rel = g₁.a_rel → 0 ≤ g₁.a_rel → g₁.a_rel ≤ 1 →
    g₂.postGain = g₁.postGain →
    g₁.y_1 ≤ g₂.y_1 → g₁.y_L ≤ g₂.y_L →
    (Compressor.gainFold ca sa cra ts g₁).1.y_1 ≤
      (Compressor.gainFold cb sb crb ts g₂).1.y_1 ∧
    (Compressor.gainFold ca sa cra ts g₁).1.y_L ≤
      (Compressor.gainFold cb sb crb ts g₂).1.y_L ∧
    List.Forall₂ (fun a b => 0 < a ∧ a ≤ b)
      (Compressor.gainFold cb sb crb ts g₂).2
      (Compressor.gainFold ca sa cra ts g₁).2 := by
  intro ts
  induction ts with
  | nil =>
    intro _ g₁ g₂ _ _ _ _ _ _ _ _ _ hy1 hyL
    exact ⟨hy1, hyL, List.Forall₂.nil⟩
  | cons t ts ih =>
    intro hread g₁ g₂ hknee hknee0 hatt hatt0 hatt1 hrel hrel0 hrel1 hpg hy1 hyL
    have hstep := gainSample_mono ca cb hAa hAb hthr hslope hslope0
      sa sb cra crb t (hread t (List.mem_cons_self t ts)) g₁ g₂
      hknee hknee0 hatt hatt0 hatt1 hrel hrel0 hrel1 hpg hy1 hyL
    have hfa := gainSample_noAuto_fields ca hAa sa cra t g₁
    have hfb := gainSample_noAuto_fields cb hAb sb crb t g₂
    have hrest := ih (fun u hu => hread u (List.mem_cons_of_mem t hu))
      (Compressor.gainSample ca sa cra t g₁).1
      (Compressor.gainSample cb sb crb t g₂).1
      (by rw [hfa.1, hfb.1, hknee]) (by rw [hfa.1]; exact hknee0)
      (by rw [hfa.2.1, hfb.2.1, hatt]) (by rw [hfa.2.1]; exact hatt0)
      (by rw [hfa.2.1]; exact hatt1)
      (by rw [hfa.2.2.1, hfb.2.2.1, hrel]) (by rw [hfa.2.2.1]; exact hrel0)
      (by rw [hfa.2.2.1]; exact hrel1)
      (by rw [hfa.2.2.2, hfb.2.2.2, hpg])
      hstep.1 hstep.2.1
    simp only [Compressor.gainFold]
    exact ⟨hrest.1, hrest.2.1,
      List.Forall₂.cons ⟨hstep.2.2.1, hstep.2.2.2⟩ hrest.2.2⟩

/-- `linkChannels` writes the same data for both compressors, so side-chain
agreement extends from the invariant region to everything below
`mLookAhead + SamplesToDo`. -/
theorem linkChannels_agree (ca cb : Compressor) (n : ℕ) (b : List (List ℝ))
    (hLA : cb.mLookAhead = ca.mLookAhead)
    (hsc : ∀ j, j < ca.mLookAhead ∨ BufferLineSize ≤ j →
      cb.mSideChain j = ca.mSideChain j) :
    ∀ j, j < ca.mLookAhead + n ∨ BufferLineSize ≤ j →
      (Compressor.linkChannels cb n b).mSideChain j =
      (Compressor.linkChannels ca n b).mSideChain j := by
  intro j hj
  simp only [Compressor.linkChannels, hLA]
  split_ifs with h
  · rfl
  · rcases hj with hj | hj
    · exact hsc j (Or.inl (by omega))
    · exact hsc j (Or.inr hj)

/-- `peakDetector` transforms agreeing positions pointwise, preserving
side-chain agreement on the active region. -/
theorem peakDetector_agree (ca cb : Compressor) (n : ℕ)
    (hLA : cb.mLookAhead = ca.mLookAhead)
    (hagree : ∀ j, j < ca.mLookAhead + n ∨ BufferLineSize ≤ j →
      cb.mSideChain j = ca.mSideChain j) :
    ∀ j, j < ca.mLookAhead + n ∨ BufferLineSize ≤ j →
      (Compressor.peakDetector cb n).mSideChain j =
      (Compressor.peakDetector ca n).mSideChain j := by
  intro j hj
  simp only [Compressor.peakDetector, hLA]
  split_ifs with h
  · rw [hagree j (Or.inl h.2)]
  · exact hagree j hj

/-- `peakHoldDetector` on equal holds and agreeing side-chains produces
agreeing side-chains and equal holds. -/
theorem peakHoldFold_stage_agree (ca cb : Compressor) (n : ℕ)
    (h0 : SlidingHold (WithBot ℝ))
    (hca : ca.mHold = some h0) (hcb : cb.mHold = some h0)
    (hLA : cb.mLookAhead = ca.mLookAhead)
    (hagree : ∀ j, j < ca.mLookAhead + n ∨ BufferLineSize ≤ j →
      cb.mSideChain j = ca.mSideChain j) :
    (∀ j, j < ca.mLookAhead + n ∨ BufferLineSize ≤ j →
      (Compressor.peakHoldDetector cb n).mSideChain j =
      (Compressor.peakHoldDetector ca n).mSideChain j) ∧
    (Compressor.peakHoldDetector cb n).mHold =
      (Compressor.peakHoldDetector ca n).mHold := by
  have hxs : (List.range n).map (fun t => cb.mSideChain (cb.mLookAhead + t)) =
      (List.range n).map (fun t => ca.mSideChain (ca.mLookAhead + t)) := by
    apply List.map_congr_left
    intro t ht
    rw [hLA]
    exact hagree _ (Or.inl (by have := List.mem_range.mp ht; omega))
  simp only [Compressor.peakHoldDetector, hca, hcb]
  rw [hxs, hLA]
  refine ⟨fun j hj => ?_, rfl⟩
  split_ifs with h
  · rfl
  · exact hagree j hj

/-- The configuration fields `peakHoldDetector` never touches. -/
theorem peakHoldDetector_cfg (c : Compressor) (n : ℕ) :
    (Compressor.peakHoldDetector c n).mAuto = c.mAuto ∧
    (Compressor.peakHoldDetector c n).mLookAhead = c.mLookAhead ∧
    (Compressor.peakHoldDetector c n).mPreGain = c.mPreGain ∧
    (Compressor.peakHoldDetector c n).mPostGain = c.mPostGain ∧
    (Compressor.peakHoldDetector c n).mThreshold = c.mThreshold ∧
    (Compressor.peakHoldDetector c n).mSlope = c.mSlope ∧
    (Compressor.peakHoldDetector c n).mKnee = c.mKnee ∧
    (Compressor.peakHoldDetector c n).mAttack = c.mAttack ∧
    (Compressor.peakHoldDetector c n).mRelease = c.mRelease ∧
    (Compressor.peakHoldDetector c n).mCrestFactor = c.mCrestFactor ∧
    (Compressor.peakHoldDetector c n).mDelay = c.mDelay ∧
    (Compressor.peakHoldDetector c n).mLastRelease = c.mLastRelease ∧
    (Compressor.peakHoldDetector c n).mLastAttack = c.mLastAttack := by
  cases hc : c.mHold <;>
    simp [Compressor.peakHoldDetector, hc]

/-- `gainCompressor` leaves side-chain entries at or past `SamplesToDo`
unchanged. -/
theorem gainCompressor_sideChain_ge (c : Compressor) (n j : ℕ) (hj : n ≤ j) :
    (Compressor.gainCompressor c n).mSideChain j = c.mSideChain j := by
  simp only [Compressor.gainCompressor]
  rw [if_neg (by omega)]

/-- `gainCompressor` overwrites entries below `SamplesToDo` with the gains
computed by the fold. -/
theorem gainCompressor_sideChain_lt (c : Compressor) (n j : ℕ) (hj : j < n) :
    (Compressor.gainCompressor c n).mSideChain j =
      (Compressor.gainFold c c.mSideChain c.mCrestFactor (List.range n)
        (Compressor.gainInit c)).2.getD j 0 := by
  simp only [Compressor.gainCompressor]
  rw [if_pos hj]

/-- The gain fold emits one gain per sample index. -/
theorem gainFold_length (c : Compressor) (s cr : ℕ → ℝ) :
    ∀ (ts : List ℕ) (g : Compressor.GainState),
      (Compressor.gainFold c s cr ts g).2.length = ts.length := by
  intro ts
  induction ts with
  | nil => intro g; rfl
  | cons t ts ih =>
    intro g
    simp only [Compressor.gainFold, List.length_cons]
    rw [ih]

/-- `Forall₂` gives the pointwise relation through `getD` inside the common
length. -/
theorem forall₂_getD {R : ℝ → ℝ → Prop} :
    ∀ {l₁ l₂ : List ℝ}, List.Forall₂ R l₁ l₂ →
      ∀ i, i < l₁.length → R (l₁.getD i 0) (l₂.getD i 0) := by
  intro l₁ l₂ h
  induction h with
  | nil => intro i hi; simp at hi
  | cons hab hrest ih =>
    intro i hi
    cases i with
    | zero => simpa using hab
    | succ i =>
      simp only [List.getD_cons_succ]
      exact ih i (by simpa using hi)

/-- `getD` through a `map` over `range`. -/
theorem getD_map_range (f : ℕ → ℝ) (n t : ℕ) (ht : t < n) :
    ((List.range n).map f).getD t 0 = f t := by
  rw [List.getD_eq_getElem _ _ (by simpa using ht), List.getElem_map,
    List.getElem_range]

/-- `signalDelay` is determined by the look-ahead, the delay lines and the
input. -/
theorem signalDelay_congr (ca cb : Compressor) (n : ℕ) (b : List (List ℝ))
    (hLA : cb.mLookAhead = ca.mLookAhead) (hD : cb.mDelay = ca.mDelay) :
    (Compressor.signalDelay cb n b).1.mDelay =
      (Compressor.signalDelay ca n b).1.mDelay ∧
    (Compressor.signalDelay cb n b).2 = (Compressor.signalDelay ca n b).2 := by
  constructor <;> simp [Compressor.signalDelay, hLA, hD]

/-- Applying pointwise-dominated positive gains can only shrink every output
sample's amplitude. -/
theorem zip_gain_abs_le (g₁ g₂ : List ℝ) (X : List (List ℝ))
    (hlen : g₂.length = g₁.length)
    (hg : ∀ t (h2 : t < g₂.length) (h1 : t < g₁.length),
      0 < g₂[t] ∧ g₂[t] ≤ g₁[t])
    (ch t : ℕ) :
    |((X.map fun c => List.zipWith (fun g x => g * x) g₂ c).getD ch []).getD
      t 0| ≤
    |((X.map fun c => List.zipWith (fun g x => g * x) g₁ c).getD ch []).getD
      t 0| := by
  by_cases hch : ch < X.length
  · have h2 : (X.map fun c => List.zipWith (fun g x => g * x) g₂ c).getD ch []
        = List.zipWith (fun g x => g * x) g₂ X[ch] := by
      rw [List.getD_eq_getElem _ _ (by simpa using hch), List.getElem_map]
    have h1 : (X.map fun c => List.zipWith (fun g x => g * x) g₁ c).getD ch []
        = List.zipWith (fun g x => g * x) g₁ X[ch] := by
      rw [List.getD_eq_getElem _ _ (by simpa using hch), List.getElem_map]
    rw [h1, h2]
    by_cases ht : t < min g₁.length (X[ch]).length
    · have ht1 : t < (List.zipWith (fun g x => g * x) g₁ X[ch]).length := by
        rw [List.length_zipWith]; omega
      have ht2 : t < (List.zipWith (fun g x => g * x) g₂ X[ch]).length := by
        rw [List.length_zipWith]; omega
      rw [List.getD_eq_getElem _ _ ht1, List.getD_eq_getElem _ _ ht2,
        List.getElem_zipWith, List.getElem_zipWith]
      have hgt := hg t (by omega) (by omega)
      rw [abs_mul, abs_mul, abs_of_pos hgt.1,
        abs_of_pos (lt_of_lt_of_le hgt.1 hgt.2)]
      exact mul_le_mul_of_nonneg_right hgt.2 (abs_nonneg _)
    · have ht1 : (List.zipWith (fun g x => g * x) g₁ X[ch]).length ≤ t := by
        rw [List.length_zipWith]; omega
      have ht2 : (List.zipWith (fun g x => g * x) g₂ X[ch]).length ≤ t := by
        rw [List.length_zipWith]; omega
      rw [List.getD_eq_default _ _ ht1, List.getD_eq_default _ _ ht2]
  · have h2 : (X.map fun c => List.zipWith (fun g x => g * x) g₂ c).getD ch []
        = [] := List.getD_eq_default _ _ (by simpa using hch)
    have h1 : (X.map fun c => List.zipWith (fun g x => g * x) g₁ c).getD ch []
        = [] := List.getD_eq_default _ _ (by simpa using hch)
    rw [h1, h2]

/-- The final stage of one `process` call (gain application and side-chain
carry) preserves `MonoRel` and yields pointwise dominated amplitudes. -/
theorem process_mono_tail (ce cf : Compressor) (n : ℕ)
    (hn : n ≤ BufferLineSize) (X : List (List ℝ))
    (hauto1 : ce.mAuto = ⟨false, false, false, false, false⟩)
    (hauto2 : cf.mAuto = ⟨false, false, false, false, false⟩)
    (hLA : cf.mLookAhead = ce.mLookAhead)
    (hLAlt : ce.mLookAhead < BufferLineSize)
    (hpre : cf.mPreGain = ce.mPreGain)
    (hpost : cf.mPostGain = ce.mPostGain)
    (hthr : cf.mThreshold = ce.mThreshold)
    (hknee : cf.mKnee = ce.mKnee) (hknee0 : 0 ≤ ce.mKnee)
    (hatt : cf.mAttack = ce.mAttack) (hrel : cf.mRelease = ce.mRelease)
    (hatt0 : 0 < ce.mAttack) (hattrel : ce.mAttack < ce.mRelease)
    (hslope : cf.mSlope ≤ ce.mSlope) (hslope0 : ce.mSlope ≤ 0)
    (hhold : cf.mHold = ce.mHold) (hdelay : cf.mDelay = ce.mDelay)
    (hcrest : cf.mCrestFactor = ce.mCrestFactor)
    (hsc : ∀ j, n ≤ j → (j < ce.mLookAhead + n ∨ BufferLineSize ≤ j) →
      cf.mSideChain j = ce.mSideChain j)
    (hgain : ∀ t, t < n → 0 < cf.mSideChain t ∧
      cf.mSideChain t ≤ ce.mSideChain t)
    (hy1 : ce.mLastRelease ≤ cf.mLastRelease)
    (hyL : ce.mLastAttack ≤ cf.mLastAttack) :
    MonoRel
      { ce with mSideChain := fun j =>
          if j < ce.mLookAhead then ce.mSideChain (n + j) else ce.mSideChain j }
      { cf with mSideChain := fun j =>
          if j < cf.mLookAhead then cf.mSideChain (n + j) else cf.mSideChain j }
    ∧
    ∀ ch t,
      |((X.map fun c => List.zipWith (fun g x => g * x)
          ((List.range n).map cf.mSideChain) c).getD ch []).getD t 0| ≤
      |((X.map fun c => List.zipWith (fun g x => g * x)
          ((List.range n).map ce.mSideChain) c).getD ch []).getD t 0| := by
  constructor
  · refine ⟨hauto1, hauto2, hLA, hLAlt, hpre, hpost, hthr, hknee, hknee0,
      hatt, hrel, hatt0, hattrel, hslope, hslope0, hhold, hdelay, hcrest,
      ?_, hy1, hyL⟩
    intro j hj
    replace hj : j < ce.mLookAhead ∨ BufferLineSize ≤ j := hj
    show (if j < cf.mLookAhead then cf.mSideChain (n + j)
        else cf.mSideChain j) =
      (if j < ce.mLookAhead then ce.mSideChain (n + j) else ce.mSideChain j)
    rw [hLA]
    split_ifs with hjK
    · exact hsc (n + j) (by omega)
        (Or.inl (by omega))
    · rcases hj with hj | hj
      · exact absurd hj hjK
      · exact hsc j (le_trans hn hj) (Or.inr hj)
  · intro ch t
    apply zip_gain_abs_le
    · simp
    · intro u h2 h1
      have hu : u < n := by simpa using h1
      simp only [List.getElem_map, List.getElem_range]
      exact hgain u hu

/-- From the detector stage on, one `process` call preserves `MonoRel` and
produces pointwise dominated output amplitudes.  `B₁, B₂` are the two
compressors after their side-chains have been filled with the (equal)
detector levels for this block. -/
theorem process_mono_stage2 (B₁ B₂ : Compressor) (n : ℕ)
    (hn : n ≤ BufferLineSize) (buf : List (List ℝ))
    (hauto1 : B₁.mAuto = ⟨false, false, false, false, false⟩)
    (hauto2 : B₂.mAuto = ⟨false, false, false, false, false⟩)
    (hLA : B₂.mLookAhead = B₁.mLookAhead)
    (hLAlt : B₁.mLookAhead < BufferLineSize)
    (hpre : B₂.mPreGain = B₁.mPreGain)
    (hpost : B₂.mPostGain = B₁.mPostGain)
    (hthr : B₂.mThreshold = B₁.mThreshold)
    (hknee : B₂.mKnee = B₁.mKnee) (hknee0 : 0 ≤ B₁.mKnee)
    (hatt : B₂.mAttack = B₁.mAttack) (hrel : B₂.mRelease = B₁.mRelease)
    (hatt0 : 0 < B₁.mAttack) (hattrel : B₁.mAttack < B₁.mRelease)
    (hslope : B₂.mSlope ≤ B₁.mSlope) (hslope0 : B₁.mSlope ≤ 0)
    (hhold : B₂.mHold = B₁.mHold) (hdelay : B₂.mDelay = B₁.mDelay)
    (hcrest : B₂.mCrestFactor = B₁.mCrestFactor)
    (hBag : ∀ j, j < B₁.mLookAhead + n ∨ BufferLineSize ≤ j →
      B₂.mSideChain j = B₁.mSideChain j)
    (hy1 : B₁.mLastRelease ≤ B₂.mLastRelease)
    (hyL : B₁.mLastAttack ≤ B₂.mLastAttack) :
    (let C₁ := Compressor.gainCompressor B₁ n
     let C₂ := Compressor.gainCompressor B₂ n
     let dres₁ := if C₁.mDelay.isEmpty = true then (C₁, buf)
       else Compressor.signalDelay C₁ n buf
     let dres₂ := if C₂.mDelay.isEmpty = true then (C₂, buf)
       else Compressor.signalDelay C₂ n buf
     MonoRel
       { dres₁.1 with mSideChain := fun j =>
           if j < dres₁.1.mLookAhead then dres₁.1.mSideChain (n + j)
           else dres₁.1.mSideChain j }
       { dres₂.1 with mSideChain := fun j =>
           if j < dres₂.1.mLookAhead then dres₂.1.mSideChain (n + j)
           else dres₂.1.mSideChain j } ∧
     ∀ ch t,
       |((dres₂.2.map fun c => List.zipWith (fun g x => g * x)
           ((List.range n).map dres₂.1.mSideChain) c).getD ch []).getD t 0| ≤
       |((dres₁.2.map fun c => List.zipWith (fun g x => g * x)
           ((List.range n).map dres₁.1.mSideChain) c).getD ch []).getD t 0|) := by
  have hreads : ∀ t ∈ List.range n,
      B₂.mSideChain (B₂.mLookAhead + t) =
      B₁.mSideChain (B₁.mLookAhead + t) := by
    intro t ht
    have htn := List.mem_range.mp ht
    rw [hLA]
    exact hBag (B₁.mLookAhead + t) (Or.inl (by omega))
  have hgatt1 : (Compressor.gainInit B₁).a_att ≤ 1 := by
    show Real.exp (-1 / B₁.mAttack) ≤ 1
    have h1 : (0:ℝ) ≤ 1 / B₁.mAttack := le_of_lt (div_pos one_pos hatt0)
    calc Real.exp (-1 / B₁.mAttack) ≤ Real.exp 0 := by
          apply Real.exp_le_exp.mpr
          rw [neg_div]
          linarith
      _ = 1 := Real.exp_zero
  have hgrel1 : (Compressor.gainInit B₁).a_rel ≤ 1 := by
    show Real.exp (-1 / (B₁.mRelease - B₁.mAttack)) ≤ 1
    have h1 : (0:ℝ) ≤ 1 / (B₁.mRelease - B₁.mAttack) :=
      le_of_lt (div_pos one_pos (by linarith))
    calc Real.exp (-1 / (B₁.mRelease - B₁.mAttack)) ≤ Real.exp 0 := by
          apply Real.exp_le_exp.mpr
          rw [neg_div]
          linarith
      _ = 1 := Real.exp_zero
  have hgf := gainFold_mono B₁ B₂ hauto1 hauto2 hthr hslope hslope0
    B₁.mSideChain B₂.mSideChain B₁.mCrestFactor B₂.mCrestFactor
    (List.range n) hreads (Compressor.gainInit B₁) (Compressor.gainInit B₂)
    hknee hknee0
    (by show Real.exp (-1 / B₂.mAttack) = Real.exp (-1 / B₁.mAttack)
        rw [hatt])
    (le_of_lt (Real.exp_pos _)) hgatt1
    (by show Real.exp (-1 / (B₂.mRelease - B₂.mAttack)) =
          Real.exp (-1 / (B₁.mRelease - B₁.mAttack))
        rw [hatt, hrel])
    (le_of_lt (Real.exp_pos _)) hgrel1
    hpost hy1 hyL
  have hlen2 : (Compressor.gainFold B₂ B₂.mSideChain B₂.mCrestFactor
      (List.range n) (Compressor.gainInit B₂)).2.length = n := by
    rw [gainFold_length]
    exact List.length_range n
  have hgainC : ∀ t, t < n →
      0 < (Compressor.gainCompressor B₂ n).mSideChain t ∧
      (Compressor.gainCompressor B₂ n).mSideChain t ≤
        (Compressor.gainCompressor B₁ n).mSideChain t := by
    intro t ht
    rw [gainCompressor_sideChain_lt B₂ n t ht,
      gainCompressor_sideChain_lt B₁ n t ht]
    exact forall₂_getD hgf.2.2 t (by rw [hlen2]; exact ht)
  have hscC : ∀ j, n ≤ j →
      (j < (Compressor.gainCompressor B₁ n).mLookAhead + n ∨
        BufferLineSize ≤ j) →
      (Compressor.gainCompressor B₂ n).mSideChain j =
        (Compressor.gainCompressor B₁ n).mSideChain j := by
    intro j hnj hreg
    rw [gainCompressor_sideChain_ge B₂ n j hnj,
      gainCompressor_sideChain_ge B₁ n j hnj]
    exact hBag j hreg
  simp only []
  by_cases hde : (Compressor.gainCompressor B₁ n).mDelay.isEmpty = true
  · have hde2 : (Compressor.gainCompressor B₂ n).mDelay.isEmpty = true := by
      rw [show (Compressor.gainCompressor B₂ n).mDelay = B₂.mDelay from rfl,
        hdelay]
      exact hde
    rw [if_pos hde, if_pos hde2]
    exact process_mono_tail (Compressor.gainCompressor B₁ n)
      (Compressor.gainCompressor B₂ n) n hn buf
      hauto1 hauto2 hLA hLAlt hpre hpost hthr hknee hknee0 hatt hrel hatt0
      hattrel hslope hslope0 hhold hdelay hcrest hscC hgainC hgf.1 hgf.2.1
  · have hde2 : ¬ (Compressor.gainCompressor B₂ n).mDelay.isEmpty = true := by
      rw [show (Compressor.gainCompressor B₂ n).mDelay = B₂.mDelay from rfl,
        hdelay]
      exact hde
    rw [if_neg hde, if_neg hde2]
    have hsd := signalDelay_congr (Compressor.gainCompressor B₁ n)
      (Compressor.gainCompressor B₂ n) n buf hLA hdelay
    rw [hsd.2]
    exact process_mono_tail
      ((Compressor.signalDelay (Compressor.gainCompressor B₁ n) n buf).1)
      ((Compressor.signalDelay (Compressor.gainCompressor B₂ n) n buf).1)
      n hn ((Compressor.signalDelay (Compressor.gainCompressor B₁ n) n buf).2)
      hauto1 hauto2 hLA hLAlt hpre hpost hthr hknee hknee0 hatt hrel hatt0
      hattrel hslope hslope0 hhold hsd.1 hcrest hscC hgainC hgf.1 hgf.2.1

/-- One `process` call preserves `MonoRel` and produces pointwise dominated
output amplitudes. -/
theorem process_mono (d₁ d₂ : Compressor) (rel : MonoRel d₁ d₂) (n : ℕ)
    (hn : n ≤ BufferLineSize) (blk : List (List ℝ)) :
    MonoRel (Compressor.process d₁ n blk).1 (Compressor.process d₂ n blk).1 ∧
    ∀ ch t,
      |((Compressor.process d₂ n blk).2.getD ch []).getD t 0| ≤
      |((Compressor.process d₁ n blk).2.getD ch []).getD t 0| := by
  obtain ⟨hauto1, hauto2, hLA, hLAlt, hpre, hpost, hthr, hknee, hknee0, hatt,
    hrel, hatt0, hattrel, hslope, hslope0, hhold, hdelay, hcrest, hsc, hy1,
    hyL⟩ := rel
  rw [process_noAuto d₁ hauto1 n blk, process_noAuto d₂ hauto2 n blk, hpre]
  simp only []
  set buf := (if d₁.mPreGain = 1 then blk
    else blk.map fun ch => ch.map fun x => x * d₁.mPreGain) with hbuf
  have hAg := linkChannels_agree d₁ d₂ n buf hLA hsc
  by_cases hh : d₁.mHold.isSome = true
  · have hc1 : (Compressor.linkChannels d₁ n buf).mHold.isSome = true := hh
    have hc2 : (Compressor.linkChannels d₂ n buf).mHold.isSome = true := by
      show d₂.mHold.isSome = true
      rw [hhold]
      exact hh
    rw [if_pos hc1, if_pos hc2]
    obtain ⟨h0, hh0⟩ := Option.isSome_iff_exists.mp hh
    have hst := peakHoldFold_stage_agree (Compressor.linkChannels d₁ n buf)
      (Compressor.linkChannels d₂ n buf) n h0 hh0
      (show (Compressor.linkChannels d₂ n buf).mHold = some h0 from
        hhold.trans hh0)
      hLA hAg
    obtain ⟨e1auto, e1LA, e1pre, e1post, e1thr, e1slope, e1knee, e1att,
      e1rel, e1crest, e1delay, e1y1, e1yL⟩ :=
      peakHoldDetector_cfg (Compressor.linkChannels d₁ n buf) n
    obtain ⟨e2auto, e2LA, e2pre, e2post, e2thr, e2slope, e2knee, e2att,
      e2rel, e2crest, e2delay, e2y1, e2yL⟩ :=
      peakHoldDetector_cfg (Compressor.linkChannels d₂ n buf) n
    exact process_mono_stage2
      (Compressor.peakHoldDetector (Compressor.linkChannels d₁ n buf) n)
      (Compressor.peakHoldDetector (Compressor.linkChannels d₂ n buf) n)
      n hn buf
      (e1auto.trans hauto1) (e2auto.trans hauto2)
      (e2LA.trans (hLA.trans e1LA.symm))
      (by rw [e1LA]; exact hLAlt)
      (e2pre.trans (hpre.trans e1pre.symm))
      (e2post.trans (hpost.trans e1post.symm))
      (e2thr.trans (hthr.trans e1thr.symm))
      (e2knee.trans (hknee.trans e1knee.symm))
      (by rw [e1knee]; exact hknee0)
      (e2att.trans (hatt.trans e1att.symm))
      (e2rel.trans (hrel.trans e1rel.symm))
      (by rw [e1att]; exact hatt0)
      (by rw [e1att, e1rel]; exact hattrel)
      (by rw [e2slope, e1slope]; exact hslope)
      (by rw [e1slope]; exact hslope0)
      hst.2
      (e2delay.trans (hdelay.trans e1delay.symm))
      (e2crest.trans (hcrest.trans e1crest.symm))
      (by
        intro j hj
        apply hst.1 j
        rcases hj with hj | hj
        · left
          rwa [e1LA] at hj
        · right
          exact hj)
      (by rw [e1y1, e2y1]; exact hy1)
      (by rw [e1yL, e2yL]; exact hyL)
  · have hc1 : ¬ (Compressor.linkChannels d₁ n buf).mHold.isSome = true := hh
    have hc2 : ¬ (Compressor.linkChannels d₂ n buf).mHold.isSome = true := by
      show ¬ d₂.mHold.isSome = true
      rw [hhold]
      exact hh
    rw [if_neg hc1, if_neg hc2]
    have hBag := peakDetector_agree (Compressor.linkChannels d₁ n buf)
      (Compressor.linkChannels d₂ n buf) n hLA hAg
    exact process_mono_stage2
      (Compressor.peakDetector (Compressor.linkChannels d₁ n buf) n)
      (Compressor.peakDetector (Compressor.linkChannels d₂ n buf) n)
      n hn buf hauto1 hauto2 hLA hLAlt hpre hpost hthr hknee hknee0 hatt hrel
      hatt0 hattrel hslope hslope0 hhold hdelay hcrest hBag hy1 hyL

/-- Across arbitrarily many `process` calls, `MonoRel` yields pointwise
dominated output amplitudes for every block, channel and sample. -/
theorem runProcess_mono (blocks : List (ℕ × List (List ℝ)))
    (hn : ∀ p ∈ blocks, p.1 ≤ BufferLineSize) :
    ∀ (d₁ d₂ : Compressor), MonoRel d₁ d₂ →
    ∀ i ch t,
      |(((Compressor.runProcess d₂ blocks).2.getD i []).getD ch []).getD
        t 0| ≤
      |(((Compressor.runProcess d₁ blocks).2.getD i []).getD ch []).getD
        t 0| := by
  induction blocks with
  | nil =>
    intro d₁ d₂ _ i ch t
    simp [Compressor.runProcess]
  | cons p rest ih =>
    intro d₁ d₂ hrel i ch t
    obtain ⟨n, blk⟩ := p
    have hstep := process_mono d₁ d₂ hrel n
      (hn (n, blk) (List.mem_cons_self _ _)) blk
    have hrest := ih (fun q hq => hn q (List.mem_cons_of_mem _ hq)) _ _
      hstep.1
    simp only [Compressor.runProcess]
    cases i with
    | zero =>
      simp only [List.getD_cons_zero]
      exact hstep.2 ch t
    | succ i =>
      simp only [List.getD_cons_succ]
      exact hrest i ch t

/-- Two automation-free creations differing only in the ratio stand in
`MonoRel` (the larger ratio gives the steeper slope). -/
theorem create_monoRel (NumChans : ℕ) (SampleRate LookAheadTime HoldTime
      PreGainDb PostGainDb ThresholdDb KneeDb AttackTime ReleaseTime
      r1 r2 : ℝ)
    (hr : r1 ≤ r2)
    (hattrel : max 1 (AttackTime * SampleRate) <
      max 1 (ReleaseTime * SampleRate)) :
    MonoRel
      (Compressor.Create NumChans SampleRate ⟨false, false, false, false,
        false⟩ LookAheadTime HoldTime PreGainDb PostGainDb ThresholdDb r1
        KneeDb AttackTime ReleaseTime)
      (Compressor.Create NumChans SampleRate ⟨false, false, false, false,
        false⟩ LookAheadTime HoldTime PreGainDb PostGainDb ThresholdDb r2
        KneeDb AttackTime ReleaseTime) := by
  have h1 : (0:ℝ) < max 1 r1 := lt_of_lt_of_le zero_lt_one (le_max_left _ _)
  have h2 : max 1 r1 ≤ max 1 r2 := max_le_max (le_refl 1) hr
  refine ⟨rfl, rfl, rfl, ?_, rfl, rfl, rfl, rfl, ?_, rfl, rfl, ?_, hattrel,
    ?_, ?_, rfl, rfl, rfl, fun j _ => rfl, le_refl _, le_refl _⟩
  · show min (round (LookAheadTime * SampleRate)).toNat (BufferLineSize - 1)
      < BufferLineSize
    have := min_le_right (round (LookAheadTime * SampleRate)).toNat
      (BufferLineSize - 1)
    simp only [BufferLineSize] at *
    omega
  · exact le_max_left 0 _
  · exact lt_of_lt_of_le zero_lt_one (le_max_left 1 _)
  · show 1 / max 1 r2 - 1 ≤ 1 / max 1 r1 - 1
    have := one_div_le_one_div_of_le h1 h2
    linarith
  · show 1 / max 1 r1 - 1 ≤ 0
    have h3 : 1 / max 1 r1 ≤ 1 := by
      rw [div_le_one h1]
      exact le_max_left 1 r1
    linarith

/-- **C8** (amended): with every automation flag disabled and the clamped
attack time constant strictly below the clamped release time constant,
creating two compressors with identical arguments except ratios `r1 ≤ r2`
and feeding both the same sequence of blocks (each at most a buffer line
long) gives per-sample output amplitudes with ratio `r2` never greater than
with ratio `r1`, at every block, channel and sample. -/
theorem c8_ratio_monotonicity_without_automation
    (NumChans : ℕ) (SampleRate LookAheadTime HoldTime PreGainDb PostGainDb
      ThresholdDb KneeDb AttackTime ReleaseTime r1 r2 : ℝ)
    (hr : r1 ≤ r2)
    (hattrel : max 1 (AttackTime * SampleRate) <
      max 1 (ReleaseTime * SampleRate))
    (blocks : List (ℕ × List (List ℝ)))
    (hn : ∀ p ∈ blocks, p.1 ≤ BufferLineSize)
    (i ch t : ℕ) :
    |(((Compressor.runProcess (Compressor.Create NumChans SampleRate
        ⟨false, false, false, false, false⟩ LookAheadTime HoldTime PreGainDb
        PostGainDb ThresholdDb r2 KneeDb AttackTime ReleaseTime)
        blocks).2.getD i []).getD ch []).getD t 0| ≤
    |(((Compressor.runProcess (Compressor.Create NumChans SampleRate
        ⟨false, false, false, false, false⟩ LookAheadTime HoldTime PreGainDb
        PostGainDb ThresholdDb r1 KneeDb AttackTime ReleaseTime)
        blocks).2.getD i []).getD ch []).getD t 0| :=
  runProcess_mono blocks hn _ _
    (create_monoRel NumChans SampleRate LookAheadTime HoldTime PreGainDb
      PostGainDb ThresholdDb KneeDb AttackTime ReleaseTime r1 r2 hr hattrel)
    i ch t

/-- Witness: ratios 1 ≤ 2 at 1 Hz with attack 1 s, release 2 s, one
single-sample block. -/
theorem c8_ratio_monotonicity_without_automation_witness :
    (1:ℝ) ≤ 2 ∧
    |(((Compressor.runProcess (Compressor.Create 1 1
        ⟨false, false, false, false, false⟩ 0 0 0 0 0 2 0 1 2)
        [(1, [[1]])]).2.getD 0 []).getD 0 []).getD 0 0| ≤
    |(((Compressor.runProcess (Compressor.Create 1 1
        ⟨false, false, false, false, false⟩ 0 0 0 0 0 1 0 1 2)
        [(1, [[1]])]).2.getD 0 []).getD 0 []).getD 0 0| :=
  ⟨by norm_num,
   c8_ratio_monotonicity_without_automation 1 1 0 0 0 0 0 0 1 2 1 2
     (by norm_num) (by norm_num) [(1, [[1]])]
     (by
       intro p hp
       simp only [List.mem_singleton] at hp
       rw [hp]
       simp [BufferLineSize])
     0 0 0⟩

/-- `gainSample` with only auto-post-gain enabled: the returned gain is
`exp(-(c_dev + gainEstimate) - y_L)` for the smoothed values of this
sample. -/
theorem gainSample_formula_pg (cp : Compressor) (s cr : ℕ → ℝ) (t : ℕ)
    (g : Compressor.GainState)
    (hauto : cp.mAuto = ⟨false, false, false, true, false⟩) :
    (Compressor.gainSample cp s cr t g).2 =
      (let x_L := -cp.mSlope * Compressor.staticCurve g.knee
          (s (cp.mLookAhead + t) - cp.mThreshold)
       let y_1 := max x_L (lerpf x_L g.y_1 g.a_rel)
       let y_L := lerpf y_1 g.y_L g.a_att
       let c_dev := lerpf (-(y_L + cp.mGainEstimate)) g.c_dev cp.mAdaptCoeff
       Real.exp (-(c_dev + cp.mGainEstimate) - y_L)) := by
  simp [Compressor.gainSample, hauto]

/-- Processing the single-sample block `[[1]]` through a fresh
auto-post-gain compressor with ratio `r ≥ 1`: the sole output sample is
`exp(exp(-5) · (log 10 · (1 - 1/r)) · (2·exp(-1/10) - 1))`, strictly
increasing in the ratio. -/
theorem postgainOnly_process_out (r : ℝ) (hr : 1 ≤ r) :
    (((Compressor.process (postgainOnlyCompressor r) 1 [[1]]).2.getD 0
      []).getD 0 0)
    = Real.exp (Real.exp (-5) * (Real.log 10 * (1 - 1/r)) *
        (2 * Real.exp (-1/10) - 1)) := by
  set c := postgainOnlyCompressor r with hc
  have hr0 : (0:ℝ) < r := lt_of_lt_of_le zero_lt_one hr
  have hmax : max 1 r = r := max_eq_right hr
  have hlog : (0:ℝ) < Real.log 10 := Real.log_pos (by norm_num)
  have hauto : c.mAuto = ⟨false, false, false, true, false⟩ := by
    simp [hc, postgainOnlyCompressor, Compressor.Create]
  have hLA : c.mLookAhead = 0 := by
    show min (round ((0:ℝ) * 0.1)).toNat (BufferLineSize - 1) = 0
    norm_num
  have hpre : c.mPreGain = 1 := by
    show (10:ℝ) ^ ((0:ℝ) / 20) = 1
    norm_num
  have hthr : c.mThreshold = -(2 * Real.log 10) := by
    show Real.log 10 / 20 * (-40) = -(2 * Real.log 10)
    ring
  have hslope : c.mSlope = 1 / r - 1 := by
    show (if AutoKneeEnumerator ≠ 0 then (-1:ℝ) else 1 / max 1 r - 1)
      = 1 / r - 1
    rw [if_neg (by simp [AutoKneeEnumerator]), hmax]
  have hknee : c.mKnee = 0 := by
    show max 0 (Real.log 10 / 20 * 0) = 0
    simp
  have hatt : c.mAttack = 10 := by
    show max 1 ((100:ℝ) * 0.1) = 10
    norm_num
  have hrel : c.mRelease = 20 := by
    show max 1 ((200:ℝ) * 0.1) = 20
    norm_num
  have hpost : c.mPostGain = 0 := by
    show Real.log 10 / 20 * 0 = 0
    ring
  have hest : c.mGainEstimate = -(Real.log 10 * (1 - 1/r)) := by
    show Real.log 10 / 20 * (-40) * -0.5 *
      (if AutoKneeEnumerator ≠ 0 then (-1:ℝ) else 1 / max 1 r - 1)
      = -(Real.log 10 * (1 - 1/r))
    rw [if_neg (by simp [AutoKneeEnumerator]), hmax]
    ring
  have hadapt : c.mAdaptCoeff = Real.exp (-5) := by
    show Real.exp (-1 / (2 * 0.1)) = Real.exp (-5)
    norm_num
  have hmul0 : ((0:ℝ) * 0.1) = 0 := by norm_num
  have hhold : c.mHold = none := by
    simp [hc, postgainOnlyCompressor, Compressor.Create, hmul0]
  have hdelay : c.mDelay = [] := by
    simp [hc, postgainOnlyCompressor, Compressor.Create, hmul0]
  simp only [Compressor.process]
  rw [if_pos hpre]
  have hcrest_c : ¬ (((Compressor.linkChannels c 1 [[(1:ℝ)]]).mAuto.Attack ||
      (Compressor.linkChannels c 1 [[(1:ℝ)]]).mAuto.Release) = true) := by
    show ¬ ((c.mAuto.Attack || c.mAuto.Release) = true)
    rw [hauto]
    simp
  rw [if_neg hcrest_c]
  have hhold_c : ¬ ((Compressor.linkChannels c 1 [[(1:ℝ)]]).mHold.isSome
      = true) := by
    show ¬ (c.mHold.isSome = true)
    rw [hhold]
    simp
  rw [if_neg hhold_c]
  have hdel_c : (Compressor.gainCompressor (Compressor.peakDetector
      (Compressor.linkChannels c 1 [[(1:ℝ)]]) 1) 1).mDelay.isEmpty
      = true := by
    show c.mDelay.isEmpty = true
    rw [hdelay]
    rfl
  rw [if_pos hdel_c]
  have hr1 : List.range 1 = [0] := rfl
  rw [hr1]
  simp only [List.map_cons, List.map_nil, List.zipWith_cons_cons,
    List.zipWith_nil_left, List.getD_cons_zero, mul_one]
  rw [gainCompressor_sideChain_lt _ 1 0 (by norm_num), hr1]
  simp only [Compressor.gainFold, List.getD_cons_zero]
  set c3 := Compressor.peakDetector (Compressor.linkChannels c 1 [[(1:ℝ)]]) 1
    with hc3
  have h3auto : c3.mAuto = ⟨false, false, false, true, false⟩ := hauto
  have h3LA : c3.mLookAhead = 0 := hLA
  have h1LA : (Compressor.linkChannels c 1 [[(1:ℝ)]]).mLookAhead = 0 := hLA
  have h1sc : (Compressor.linkChannels c 1 [[(1:ℝ)]]).mSideChain 0 = 1 := by
    show (if c.mLookAhead ≤ 0 ∧ 0 < c.mLookAhead + 1 then
        ([[(1:ℝ)]]).foldl (fun s ch => max s |ch.getD (0 - c.mLookAhead) 0|) 0
      else c.mSideChain 0) = 1
    rw [hLA]
    rw [if_pos (by norm_num)]
    simp
  have h3sc0 : c3.mSideChain 0 = 0 := by
    rw [hc3]
    show (if (Compressor.linkChannels c 1 [[(1:ℝ)]]).mLookAhead ≤ 0 ∧
        0 < (Compressor.linkChannels c 1 [[(1:ℝ)]]).mLookAhead + 1 then
        Real.log (max 0.000001
          ((Compressor.linkChannels c 1 [[(1:ℝ)]]).mSideChain 0))
      else (Compressor.linkChannels c 1 [[(1:ℝ)]]).mSideChain 0) = 0
    rw [h1sc, h1LA]
    rw [if_pos (by norm_num)]
    norm_num
  have h3scLA : c3.mSideChain (c3.mLookAhead + 0) = 0 := by
    rw [h3LA]
    exact h3sc0
  rw [gainSample_formula_pg c3 c3.mSideChain c3.mCrestFactor 0
    (Compressor.gainInit c3) h3auto]
  simp only [Compressor.gainInit]
  rw [h3scLA]
  have h3thr : c3.mThreshold = -(2 * Real.log 10) := hthr
  have h3slope : c3.mSlope = 1 / r - 1 := hslope
  have h3knee : c3.mKnee = 0 := hknee
  have h3att : c3.mAttack = 10 := hatt
  have h3rel : c3.mRelease = 20 := hrel
  have h3est : c3.mGainEstimate = -(Real.log 10 * (1 - 1/r)) := hest
  have h3adapt : c3.mAdaptCoeff = Real.exp (-5) := hadapt
  have h3lr : c3.mLastRelease = 0 := rfl
  have h3la : c3.mLastAttack = 0 := rfl
  have h3ld : c3.mLastGainDev = 0 := rfl
  rw [h3thr, h3slope, h3knee, h3att, h3rel, h3est, h3adapt, h3lr, h3la, h3ld]
  have h2010 : (20:ℝ) - 10 = 10 := by norm_num
  rw [h2010]
  have hcurve : Compressor.staticCurve 0 (0 - -(2 * Real.log 10))
      = 2 * Real.log 10 := by
    have hx : (0:ℝ) - -(2 * Real.log 10) = 2 * Real.log 10 := by ring
    rw [hx]
    simp only [Compressor.staticCurve]
    rw [if_neg (by nlinarith), if_neg (by
      simp only [mul_zero]
      exact not_lt.mpr (abs_nonneg _))]
  rw [hcurve]
  have hσ : (0:ℝ) ≤ -(1 / r - 1) := by
    have h1r : 1 / r ≤ 1 := by
      rw [div_le_one hr0]
      exact hr
    linarith
  have hmaxeq : max (-(1 / r - 1) * (2 * Real.log 10))
      (lerpf (-(1 / r - 1) * (2 * Real.log 10)) 0 (Real.exp (-1 / 10)))
      = -(1 / r - 1) * (2 * Real.log 10) := by
    apply max_eq_left
    simp only [lerpf]
    have ha : (0:ℝ) < Real.exp (-1 / 10) := Real.exp_pos _
    nlinarith [mul_nonneg (mul_nonneg hσ (by linarith : (0:ℝ) ≤ 2 * Real.log 10)) (le_of_lt ha)]
  rw [hmaxeq]
  simp only [lerpf]
  rw [Real.exp_eq_exp]
  ring

/-- **C8** (counterexample): with auto-post-gain enabled the claim fails.
Two compressors created with identical arguments except ratios 1 ≤ 2 (one
channel, 10 Hz, -40 dB threshold, auto-post-gain, input level exceeding the
threshold) give a strictly LARGER per-sample output amplitude at the higher
ratio on the block `[[1]]`: ratio 1 leaves the sample at amplitude 1 while
ratio 2 amplifies it, because the automatic post-gain overcompensates the
gain estimate before the reduction has smoothed in. -/
theorem c8_ratio_not_monotone_with_autopostgain :
    |(((Compressor.process (postgainOnlyCompressor 1) 1 [[1]]).2.getD 0
        []).getD 0 0)| <
    |(((Compressor.process (postgainOnlyCompressor 2) 1 [[1]]).2.getD 0
        []).getD 0 0)| := by
  rw [postgainOnly_process_out 1 (le_refl 1),
    postgainOnly_process_out 2 (by norm_num)]
  rw [abs_of_pos (Real.exp_pos _), abs_of_pos (Real.exp_pos _)]
  apply Real.exp_lt_exp.mpr
  have hL : (0:ℝ) < Real.log 10 := Real.log_pos (by norm_num)
  have hadp : (0:ℝ) < Real.exp (-5 : ℝ) := Real.exp_pos _
  have ha : (1:ℝ)/2 < Real.exp (-1/10) := by
    have h2 : (0.6931471803 : ℝ) < Real.log 2 := Real.log_two_gt_d9
    have hhalf : Real.log (1/2) < -1/10 := by
      rw [one_div, Real.log_inv]
      linarith
    calc (1:ℝ)/2 = Real.exp (Real.log (1/2)) :=
          (Real.exp_log (by norm_num)).symm
      _ < Real.exp (-1/10) := Real.exp_lt_exp.mpr hhalf
  have h1 : (1:ℝ) - 1/1 = 0 := by norm_num
  have h2 : (1:ℝ) - 1/2 = 1/2 := by norm_num
  rw [h1, h2]
  simp only [mul_zero, zero_mul]
  have hpos : (0:ℝ) < 2 * Real.exp (-1/10) - 1 := by linarith
  exact mul_pos (mul_pos hadp (mul_pos hL (by norm_num))) hpos
